import Mathlib

/-!
A verification development for a partial-order-alignment (POA) graph library.
The public boundary of the library is a C header (graph creation, sequence
insertion with affine-gap global alignment, MSA extraction, GFA export); the
alignment core behind it is modelled here from the system specification:
a graph store of nodes and edges kept in topological order, a DAG-aware
dynamic-programming aligner with three score matrices (M, Y, X), a traceback
with a deterministic tie-break policy, a graph mutator that threads the
alignment path back into the store, an MSA builder and a GFA serializer.
-/

namespace Poasta

/-- Option Int acts as scores with bottom: none stands for minus infinity. -/
def omax : Option Int → Option Int → Option Int
  | none, b => b
  | some a, none => some a
  | some a, some b => some (max a b)

/-- Maximum of a list of extended scores. -/
def omaxList (l : List (Option Int)) : Option Int := l.foldr omax none

/-- Subtract a natural penalty from an extended score. -/
def osub (v : Option Int) (c : Nat) : Option Int := v.map (fun x => x - (c : Int))

/-- Add an integer contribution to an extended score. -/
def oadd (v : Option Int) (c : Int) : Option Int := v.map (fun x => x + c)

/-- Insert an element into a list sorted by the boolean relation le. -/
def insertSorted (le : α → α → Bool) (a : α) : List α → List α
  | [] => [a]
  | b :: l => if le a b then a :: b :: l else b :: insertSorted le a l

/-- Insertion sort by the boolean relation le. -/
def isort (le : α → α → Bool) : List α → List α
  | [] => []
  | a :: l => insertSorted le a (isort le l)

/-- Modelled from the spec: the supported residue alphabet (nucleotides). -/
def alphabet : List Char := ['A', 'C', 'G', 'T']

/-- Modelled from the spec: a Node of the graph store holds one aligned
residue: a stable integer identifier, its symbol and an aggregate
weight (support count of the sequences passing through it). -/
structure Node where
  id : Nat
  sym : Char
  weight : Nat
deriving DecidableEq, Repr

instance : Inhabited Node := ⟨⟨0, 'A', 0⟩⟩

/-- Modelled from the spec: a directed Edge between node identifiers with a
weight counting the sequences traversing it. -/
structure Edge where
  src : Nat
  dst : Nat
  weight : Nat
deriving DecidableEq, Repr

/-- Modelled from the spec: a Sequence Record keeps the original residues,
the multiplicity weight of the insertion and the ordered list of node
identifiers of its alignment path. -/
structure SeqRecord where
  residues : List Char
  weight : Nat
  path : List Nat
deriving DecidableEq, Repr

/-- Modelled from the spec: the Graph Store. The node list is maintained in
topological order (the spec allows the order to be incrementally maintained
on every mutation); the start and end sentinels are modelled implicitly:
a node without in-edges hangs off the virtual start sentinel and a node
without out-edges precedes the virtual end sentinel. nextId is the
monotonically increasing identifier supply; identifiers are never reused. -/
structure Graph where
  nodes : List Node
  edges : List Edge
  seqs : List SeqRecord
  nextId : Nat
deriving DecidableEq, Repr

/-- Modelled from the spec: CreateGraph returns an empty store with only the
implicit sentinels, connected by no intermediate path. -/
def Graph.empty : Graph := ⟨[], [], [], 0⟩

/-- Modelled from the spec: the scoring configuration of one insertion call:
mismatch penalty, gap-open penalty and gap-extension penalty, all penalty
magnitudes. -/
structure Scoring where
  mismatch : Nat
  gapOpen : Nat
  gapExtend : Nat
deriving DecidableEq, Repr

/-- Modelled from the spec: a match contributes a fixed positive score; the
public interface does not make it configurable, so it is fixed to one. -/
def matchScore : Int := 1

/-- Substitution score: the fixed positive match score on equal symbols,
minus the configured mismatch penalty otherwise. -/
def subScore (sc : Scoring) (a b : Char) : Int :=
  if a = b then matchScore else -(sc.mismatch : Int)

/-- Identifier of the node at a topological rank. -/
def idOfRank (g : Graph) (r : Nat) : Nat := (g.nodes.getD r default).id

/-- Symbol of the node at a topological rank. -/
def symOfRank (g : Graph) (r : Nat) : Char := (g.nodes.getD r default).sym

/-- Whether the store has an edge between the two node identifiers. -/
def hasEdge (g : Graph) (a b : Nat) : Bool :=
  g.edges.any (fun e => e.src = a && e.dst = b)

/-- Ranks of the predecessors of the node at rank r. The DP sweeps the store
in topological order, so only lower ranks are enumerated. -/
def predRanks (g : Graph) (r : Nat) : List Nat :=
  (List.range r).filter (fun u => hasEdge g (idOfRank g u) (idOfRank g r))

/-- Predecessor rows of rank r in the DP: its predecessor ranks, or the
virtual start sentinel (encoded none) when it has no in-edges. -/
def preds (g : Graph) (r : Nat) : List (Option Nat) :=
  let l := predRanks g r
  if l.isEmpty then [none] else l.map some

/-- Ranks of the nodes without out-edges (the rows feeding the virtual end
sentinel). -/
def sinkRanks (g : Graph) : List Nat :=
  (List.range g.nodes.length).filter
    (fun r => !(g.edges.any (fun e => e.src = idOfRank g r)))

/-- Rows whose scores the global alignment may end in: the sink predecessors,
or the virtual start row when the store has no nodes at all. -/
def sinkCands (g : Graph) : List (Option Nat) :=
  let l := sinkRanks g
  if l.isEmpty then [none] else l.map some

/-- The three DP matrices: M (match or mismatch), Y (gap in the graph,
a deletion) and X (gap in the sequence, an insertion). -/
inductive Mat | m | y | x
deriving DecidableEq, Repr

/-- Row index in the measure: the virtual start row is 0, rank r is r + 1. -/
def rowRank : Option Nat → Nat
  | none => 0
  | some r => r + 1

/-- Termination measure of a DP cell. -/
def cellMeasure (n : Nat) (p : Option Nat) (j : Nat) : Nat :=
  j * (n + 2) + rowRank p

/-- Modelled from the spec: the affine-gap DAG alignment recurrences, with
explicit fuel (every recursive call strictly decreases the cell measure, so
any fuel above the measure computes the recurrence).
M at (row v, column j) maximises best(M,X,Y) at a predecessor row and
column j-1 plus the substitution score; Y maximises M minus gap-open or
Y minus gap-extend at a predecessor row in the same column; X maximises
M minus gap-open or X minus gap-extend in the same row at column j-1.
The virtual start row scores 0 in M at column 0 and supports X chains. -/
def scoreF (g : Graph) (s : List Char) (sc : Scoring) :
    Nat → Mat → Option Nat → Nat → Option Int
  | 0, _, _, _ => none
  | _ + 1, .m, none, j => if j = 0 then some 0 else none
  | _ + 1, .y, none, _ => none
  | _ + 1, .x, none, 0 => none
  | fuel + 1, .x, none, j + 1 =>
      omax (osub (scoreF g s sc fuel .m none j) sc.gapOpen)
           (osub (scoreF g s sc fuel .x none j) sc.gapExtend)
  | _ + 1, .m, some _, 0 => none
  | fuel + 1, .m, some r, j + 1 =>
      omaxList ((preds g r).map (fun u =>
        oadd (omax (scoreF g s sc fuel .m u j)
               (omax (scoreF g s sc fuel .x u j) (scoreF g s sc fuel .y u j)))
          (subScore sc (s.getD j 'A') (symOfRank g r))))
  | fuel + 1, .y, some r, j =>
      omaxList ((preds g r).map (fun u =>
        omax (osub (scoreF g s sc fuel .m u j) sc.gapOpen)
             (osub (scoreF g s sc fuel .y u j) sc.gapExtend)))
  | _ + 1, .x, some _, 0 => none
  | fuel + 1, .x, some r, j + 1 =>
      omax (osub (scoreF g s sc fuel .m (some r) j) sc.gapOpen)
           (osub (scoreF g s sc fuel .x (some r) j) sc.gapExtend)

/-- Sufficient fuel for every cell of the DP on this instance. -/
def bigFuel (g : Graph) (s : List Char) : Nat :=
  (s.length + 1) * (g.nodes.length + 2)

/-- The DP score of a cell, computed with ample fuel. -/
def score (g : Graph) (s : List Char) (sc : Scoring)
    (mat : Mat) (p : Option Nat) (j : Nat) : Option Int :=
  scoreF g s sc (bigFuel g s) mat p j

/-- Best of the three matrices at a row and column. -/
def bestAt (g : Graph) (s : List Char) (sc : Scoring)
    (p : Option Nat) (j : Nat) : Option Int :=
  omax (score g s sc .m p j)
    (omax (score g s sc .x p j) (score g s sc .y p j))

/-- Modelled from the spec: the optimal global alignment score: the maximum
over the rows feeding the end sentinel of the best matrix value at the
end-of-sequence column. -/
def finalScore (g : Graph) (s : List Char) (sc : Scoring) : Option Int :=
  omaxList ((sinkCands g).map (fun u => bestAt g s sc u s.length))

/-- One traceback step: a sequence position aligned to a graph row (match or
mismatch), a deleted graph row (gap in the graph), or an inserted sequence
position aligned to no existing row (gap in the graph topology). -/
inductive Step
  | mat (r : Nat) (j : Nat)
  | del (r : Nat)
  | ins (j : Nat)
deriving DecidableEq, Repr

/-- Index of a matrix in the tie-break preference order M before Y before X. -/
def matIdx : Mat → Nat
  | .m => 0
  | .y => 1
  | .x => 2

/-- Identifier used when ordering candidate rows: the virtual start row only
ever occurs alone, so its value is irrelevant. -/
def candId (g : Graph) : Option Nat → Nat
  | none => 0
  | some r => idOfRank g r

/-- Candidate rows sorted by ascending node identifier, the second component
of the tie-break policy. -/
def sortCands (g : Graph) (l : List (Option Nat)) : List (Option Nat) :=
  isort (fun a b => candId g a ≤ candId g b) l

/-- Modelled from the spec: the predecessor-cell candidates of a traceback
cell, listed in tie-break order: matrices in the order M, Y, X first, and
equal-matrix candidates by ascending node identifier. -/
def cands (g : Graph) (mat : Mat) (p : Option Nat) : List (Mat × Option Nat) :=
  match mat, p with
  | .m, some r =>
      ([Mat.m, Mat.y, Mat.x]).flatMap
        (fun mt => (sortCands g (preds g r)).map (fun u => (mt, u)))
  | .y, some r =>
      ((sortCands g (preds g r)).map (fun u => (Mat.m, u))) ++
      ((sortCands g (preds g r)).map (fun u => (Mat.y, u)))
  | .x, p => [(Mat.m, p), (Mat.x, p)]
  | _, none => []

/-- Whether a candidate predecessor cell accounts for the given cell value v:
its stored score plus the contribution of the move reaching the cell equals
v exactly. -/
def candCheck (g : Graph) (s : List Char) (sc : Scoring)
    (mat : Mat) (p : Option Nat) (j : Nat) (v : Int) :
    Mat × Option Nat → Bool
  | (mt, u) =>
    match mat, j with
    | .m, 0 => false
    | .m, j' + 1 =>
        decide (oadd (scoreF g s sc (bigFuel g s) mt u j')
          (subScore sc (s.getD j' 'A') (symOfRank g (p.getD 0))) = some v)
    | .y, _ =>
        match mt with
        | .m => decide (osub (score g s sc .m u j) sc.gapOpen = some v)
        | .y => decide (osub (score g s sc .y u j) sc.gapExtend = some v)
        | .x => false
    | .x, 0 => false
    | .x, j' + 1 =>
        match mt with
        | .m => decide (osub (score g s sc .m u j') sc.gapOpen = some v)
        | .x => decide (osub (score g s sc .x u j') sc.gapExtend = some v)
        | .y => false

/-- Modelled from the spec: the traceback walk. From a cell it recovers the
cell value, picks the first candidate predecessor cell in tie-break order
whose score accounts for the value, and recurses there, emitting the steps
in forward order. It ends in the M cell of the virtual start row at column
0. Fuel above the cell measure always suffices; exhausted fuel or an
unaccountable cell yields none (a corrupted store). -/
def tbF (g : Graph) (s : List Char) (sc : Scoring) :
    Nat → Mat → Option Nat → Nat → Option (List Step)
  | 0, _, _, _ => none
  | _ + 1, .m, none, j => if j = 0 then some [] else none
  | _ + 1, .y, none, _ => none
  | _ + 1, .x, none, 0 => none
  | fuel + 1, .x, none, j + 1 =>
      match score g s sc .x none (j + 1) with
      | none => none
      | some v =>
        match (cands g .x none).find? (candCheck g s sc .x none (j + 1) v) with
        | none => none
        | some (mt, u) => (tbF g s sc fuel mt u j).map (fun l => l ++ [Step.ins j])
  | _ + 1, .m, some _, 0 => none
  | fuel + 1, .m, some r, j + 1 =>
      match score g s sc .m (some r) (j + 1) with
      | none => none
      | some v =>
        match (cands g .m (some r)).find?
            (candCheck g s sc .m (some r) (j + 1) v) with
        | none => none
        | some (mt, u) => (tbF g s sc fuel mt u j).map (fun l => l ++ [Step.mat r j])
  | fuel + 1, .y, some r, j =>
      match score g s sc .y (some r) j with
      | none => none
      | some v =>
        match (cands g .y (some r)).find? (candCheck g s sc .y (some r) j v) with
        | none => none
        | some (mt, u) => (tbF g s sc fuel mt u j).map (fun l => l ++ [Step.del r])
  | _ + 1, .x, some _, 0 => none
  | fuel + 1, .x, some r, j + 1 =>
      match score g s sc .x (some r) (j + 1) with
      | none => none
      | some v =>
        match (cands g .x (some r)).find?
            (candCheck g s sc .x (some r) (j + 1) v) with
        | none => none
        | some (mt, u) => (tbF g s sc fuel mt u j).map (fun l => l ++ [Step.ins j])

/-- Modelled from the spec: traceback starts at the sink cell with the
maximum score among the three matrices (ties broken by matrix order M, Y, X
and then by lowest node identifier) and walks backward to the start. -/
def traceback (g : Graph) (s : List Char) (sc : Scoring) : Option (List Step) :=
  match finalScore g s sc with
  | none => none
  | some v =>
    match (([Mat.m, Mat.y, Mat.x]).flatMap
        (fun mt => (sortCands g (sinkCands g)).map (fun u => (mt, u)))).find?
        (fun c => decide (score g s sc c.1 c.2 s.length = some v)) with
    | none => none
    | some (mt, u) => tbF g s sc (bigFuel g s) mt u s.length

/-- Per-position outcome handed to the mutator: reuse the existing node at a
rank (the traceback matched there with an equal symbol) or create a fresh
node (a mismatch, which the mutator realizes as a substitution node, or an
insertion). -/
inductive PosA
  | reuse (r : Nat)
  | fresh
deriving DecidableEq, Repr

/-- Modelled from the spec: the per-sequence-position outcomes of a
traceback: matched rows with equal symbols are reused, mismatched rows
become substitution nodes, insertions become brand-new nodes; deletions
touch no sequence position. -/
def positionsOf (g : Graph) (s : List Char) (steps : List Step) : List PosA :=
  steps.filterMap (fun st =>
    match st with
    | Step.mat r j =>
        some (if symOfRank g r = s.getD j 'A' then PosA.reuse r else PosA.fresh)
    | Step.ins _ => some PosA.fresh
    | Step.del _ => none)

/-- A realized path element: an existing node at a rank, or a fresh node
with its new identifier and symbol. -/
inductive Item
  | old (r : Nat)
  | new (i : Nat) (c : Char)
deriving DecidableEq, Repr

/-- Assign fresh identifiers, in increasing order, to the fresh positions. -/
def realize (nid : Nat) : List (Char × PosA) → List Item
  | [] => []
  | (_, PosA.reuse r) :: rest => Item.old r :: realize nid rest
  | (c, PosA.fresh) :: rest => Item.new nid c :: realize (nid + 1) rest

/-- The node identifier a realized path element stands for. -/
def itemId (g : Graph) : Item → Nat
  | .old r => idOfRank g r
  | .new i _ => i

/-- Is the realized path element a fresh node? -/
def isNew : Item → Bool
  | .old _ => false
  | .new _ _ => true

/-- Emit the node-list prefix up to and including rank r (whose weight is
incremented by w, the reuse), returning the prefix and the remaining
suffix; k is the rank of the head of the remaining original list. -/
def emitUpTo (w : Nat) (r : Nat) : List Node → Nat → List Node × List Node
  | [], _ => ([], [])
  | n :: rest, k =>
    if k = r then ([{ n with weight := n.weight + w }], rest)
    else
      let pr := emitUpTo w r rest (k + 1)
      (n :: pr.1, pr.2)

/-- Modelled from the spec: rebuild the node list along the realized path.
Reused nodes keep their place with their weight incremented; fresh nodes
are inserted at their correct topological position, directly after the
previously realized node (or at the head when the path starts with fresh
nodes), so the node list stays topologically sorted. -/
def buildNodes (w : Nat) : List Node → Nat → List Item → List Node
  | orig, _, [] => orig
  | orig, k, Item.new i c :: rest => ⟨i, c, w⟩ :: buildNodes w orig k rest
  | orig, k, Item.old r :: rest =>
      let pr := emitUpTo w r orig k
      pr.1 ++ buildNodes w pr.2 (r + 1) rest

/-- Modelled from the spec: addEdge is idempotent on the edge set: when the
edge already exists its weight is incremented by the requested amount,
otherwise the edge is appended with that weight. -/
def addEdge (es : List Edge) (a b : Nat) (w : Nat) : List Edge :=
  if es.any (fun e => e.src = a && e.dst = b) then
    es.map (fun e =>
      if e.src = a && e.dst = b then { e with weight := e.weight + w } else e)
  else es ++ [⟨a, b, w⟩]

/-- Add an edge for every pair of consecutive nodes of the realized path. -/
def addPathEdges (es : List Edge) (w : Nat) : List Nat → List Edge
  | [] => es
  | [_] => es
  | a :: b :: rest => addPathEdges (addEdge es a b w) w (b :: rest)

/-- Modelled from the spec: the Graph Mutator commits an alignment into the
store: reused nodes gain w support, fresh nodes are created with weight w
at their topological position, consecutive path nodes are connected by
edges of weight w (incrementing existing ones), and a sequence record of
the residues, the weight and the realized path is appended. -/
def mutate (g : Graph) (s : List Char) (w : Nat) (pos : List PosA) : Graph :=
  let items := realize g.nextId (s.zip pos)
  let rids := items.map (itemId g)
  { nodes := buildNodes w g.nodes 0 items
    edges := addPathEdges g.edges w rids
    seqs := g.seqs ++ [⟨s, w, rids⟩]
    nextId := g.nextId + items.countP isNew }

/-- Modelled from the spec: the error taxonomy of an insertion. -/
inductive AErr
  | invalidSequence
  | invalidScoring
  | graphCorrupted
deriving DecidableEq, Repr

/-- A sequence is valid when it is non-empty and drawn from the alphabet. -/
def validSeq (s : List Char) : Bool :=
  !s.isEmpty && s.all (fun c => decide (c ∈ alphabet))

/-- A scoring configuration is consistent when the gap-extension penalty
does not exceed the gap-open penalty. -/
def validScoring (sc : Scoring) : Bool :=
  sc.gapExtend ≤ sc.gapOpen

/-- Modelled from the spec: weighted sequence insertion. Validation happens
before any mutation: an empty or out-of-alphabet sequence fails with
invalidSequence, an inconsistent scoring fails with invalidScoring, and on
failure no mutated graph is produced. Otherwise the aligner and the
mutator run with the multiplicity weight w. -/
def addSequenceW (g : Graph) (s : List Char) (sc : Scoring) (w : Nat) :
    Except AErr Graph :=
  if validSeq s = false then .error AErr.invalidSequence
  else if validScoring sc = false then .error AErr.invalidScoring
  else
    match traceback g s sc with
    | none => .error AErr.graphCorrupted
    | some steps => .ok (mutate g s w (positionsOf g s steps))

/-- Modelled from the spec: AddSequence runs the aligner and the mutator
with weight one. -/
def addSequence (g : Graph) (s : List Char) (sc : Scoring) : Except AErr Graph :=
  addSequenceW g s sc 1

/-- The boundary keeps the previous store on failure: validation failures
leave the graph completely unchanged. -/
def commit (g : Graph) (r : Except AErr Graph) : Graph :=
  match r with
  | .ok g' => g'
  | .error _ => g

/-- Status code of an insertion result at the C boundary. -/
def statusOf (r : Except AErr Graph) : Int :=
  match r with
  | .ok _ => 0
  | .error AErr.invalidSequence => 1
  | .error AErr.invalidScoring => 2
  | .error AErr.graphCorrupted => 3

/-- Reduction of a caller value to the unsigned 8-bit parameter range of the
boundary, as C integer conversion does. -/
def clampU8 (x : Nat) : Nat := x % 2 ^ 8

/-- Reduction of a caller value to the unsigned 32-bit weight range of the
boundary. -/
def clampU32 (x : Nat) : Nat := x % 2 ^ 32

/-- The C boundary of weighted insertion: the scoring parameters are
unsigned 8-bit integers and the weight an unsigned 32-bit integer, so the
caller values are reduced to those ranges before the core runs; the store
is replaced only on success and a status code is returned. -/
def poastaAddSequenceWithWeight (g : Graph) (s : List Char)
    (w mm go ge : Nat) : Graph × Int :=
  let r := addSequenceW g s ⟨clampU8 mm, clampU8 go, clampU8 ge⟩ (clampU32 w)
  (commit g r, statusOf r)

/-- The C boundary of plain insertion: weight fixed to one. -/
def poastaAddSequence (g : Graph) (s : List Char) (mm go ge : Nat) :
    Graph × Int :=
  poastaAddSequenceWithWeight g s 1 mm go ge

/-- Modelled from the spec: the MSA Builder. One output string per stored
sequence, in insertion order; the columns are the topological order of the
graph (the node list) minus the sentinels, and a column a sequence's path
does not touch is rendered as the gap symbol. -/
def Graph.msa (g : Graph) : List (List Char) :=
  g.seqs.map (fun rec =>
    g.nodes.map (fun n => if rec.path.contains n.id then n.sym else '-'))

/-- A GFA record: a segment per node (identifier and symbol), a link per
edge (endpoints and weight), and a path record per stored sequence. -/
inductive GfaRecord
  | seg (id : Nat) (sym : Char)
  | link (src dst w : Nat)
  | path (name : Nat) (nodes : List Nat)
deriving DecidableEq, Repr

/-- Modelled from the spec: the Serializer emits one segment record per
node, one link record per edge and one path record per sequence record;
the textual rendering of individual records is boundary glue and is
modelled at the record level. -/
def Graph.gfa (g : Graph) : List GfaRecord :=
  (g.nodes.map (fun n => GfaRecord.seg n.id n.sym)) ++
  (g.edges.map (fun e => GfaRecord.link e.src e.dst e.weight)) ++
  (((List.range g.seqs.length).zip g.seqs).map
    (fun p => GfaRecord.path p.1 p.2.path))

/-- Read the node set (identifier and symbol per segment record) back from
a GFA document. -/
def parseSegs (recs : List GfaRecord) : List (Nat × Char) :=
  recs.filterMap (fun r =>
    match r with
    | GfaRecord.seg i c => some (i, c)
    | _ => none)

/-- Read the edge set (with weights) back from a GFA document. -/
def parseLinks (recs : List GfaRecord) : List Edge :=
  recs.filterMap (fun r =>
    match r with
    | GfaRecord.link a b w => some ⟨a, b, w⟩
    | _ => none)

/-- Well-formedness of the store: distinct identifiers below the supply,
and every edge joins two present nodes such that the source appears
strictly before the destination in the node list; since the node list is
the maintained topological order, this exhibits a valid topological order
and the store is a DAG. The edge list also holds no duplicate edge. -/
structure WF (g : Graph) : Prop where
  idsNodup : (g.nodes.map Node.id).Nodup
  idsLt : ∀ n ∈ g.nodes, n.id < g.nextId
  edgeFwd : ∀ e ∈ g.edges, [e.src, e.dst].Sublist (g.nodes.map Node.id)
  edgesNodup : (g.edges.map (fun e => (e.src, e.dst))).Nodup

/-- The node list order is a witness topological order: every edge goes
from an earlier node to a later one. -/
def TopoValid (g : Graph) : Prop :=
  ∀ e ∈ g.edges, [e.src, e.dst].Sublist (g.nodes.map Node.id)

/-- The reachable graph states: the empty store and everything a successful
insertion produces. -/
inductive Reachable : Graph → Prop
  | empty : Reachable Graph.empty
  | step {g g' : Graph} {s : List Char} {sc : Scoring} {w : Nat} :
      Reachable g → addSequenceW g s sc w = .ok g' → Reachable g'

/-- The score of an alignment recomputed independently from its traceback
steps, scanning forward: each aligned position contributes its match or
mismatch substitution score, a gap run is charged gap-open on its first
step and gap-extend on every further step (the previous step kind is
carried along; deletion runs and insertion runs are distinct gap runs). -/
def scoreOfSteps (g : Graph) (s : List Char) (sc : Scoring)
    (steps : List Step) : Int :=
  (steps.foldl (fun acc st =>
    match st with
    | Step.mat r j =>
        (acc.1 + subScore sc (s.getD j 'A') (symOfRank g r), Mat.m)
    | Step.del _ =>
        (acc.1 - (if acc.2 = Mat.y then (sc.gapExtend : Int) else (sc.gapOpen : Int)),
         Mat.y)
    | Step.ins _ =>
        (acc.1 - (if acc.2 = Mat.x then (sc.gapExtend : Int) else (sc.gapOpen : Int)),
         Mat.x)) ((0 : Int), Mat.m)).1

/-- The tie-break preference order on traceback candidates: first the matrix
order M before Y before X, then the lower node identifier. -/
def tbLE (g : Graph) (c d : Mat × Option Nat) : Prop :=
  matIdx c.1 < matIdx d.1 ∨ (matIdx c.1 = matIdx d.1 ∧ candId g c.2 ≤ candId g d.2)

/-- The nodes of the chain graph of a sequence: one node per residue, with
consecutive identifiers starting at i0 and uniform weight w. -/
def chainNodes (w : Nat) (i0 : Nat) : List Char → List Node
  | [] => []
  | c :: rest => ⟨i0, c, w⟩ :: chainNodes w (i0 + 1) rest

/-- The edges of the chain graph: each node to its successor, weight w. -/
def chainEdges (w : Nat) (i0 : Nat) : List Char → List Edge
  | [] => []
  | [_] => []
  | _ :: c :: rest => ⟨i0, i0 + 1, w⟩ :: chainEdges w (i0 + 1) (c :: rest)

/-- The graph a single insertion of s with weight w into the empty store
produces: a simple chain spelling s. -/
def chainGraph (s : List Char) (w : Nat) : Graph :=
  ⟨chainNodes w 0 s, chainEdges w 0 s, [⟨s, w, List.range s.length⟩], s.length⟩

/-- Shape of a node: its identity without the mutable weight. -/
def nodeShape (n : Node) : Nat × Char := (n.id, n.sym)

/-- Shape of an edge: its endpoints without the mutable weight. -/
def edgeShape (e : Edge) : Nat × Nat := (e.src, e.dst)

/-! ### Theorems -/

theorem validSeq_true_iff (s : List Char) :
    validSeq s = true ↔ (s ≠ [] ∧ ∀ c ∈ s, c ∈ alphabet) := by
  cases s with
  | nil => simp [validSeq]
  | cons a l => simp [validSeq, List.all_eq_true]

theorem validSeq_false_iff (s : List Char) :
    validSeq s = false ↔ (s = [] ∨ ∃ c ∈ s, c ∉ alphabet) := by
  rw [← Bool.not_eq_true, validSeq_true_iff]
  push_neg
  constructor
  · intro h
    by_cases hs : s = []
    · exact Or.inl hs
    · obtain ⟨c, hc, hna⟩ := h hs
      exact Or.inr ⟨c, hc, hna⟩
  · rintro (h | ⟨c, hc, hna⟩)
    · intro hs; exact absurd h hs
    · intro _; exact ⟨c, hc, hna⟩

theorem validScoring_false_iff (sc : Scoring) :
    validScoring sc = false ↔ sc.gapOpen < sc.gapExtend := by
  simp [validScoring, Nat.lt_iff_add_one_le, Nat.not_le]

/-- C4: AddSequence and AddSequenceWeighted fail with invalidSequence
exactly when the sequence is empty or holds a symbol outside the supported
alphabet; for a valid sequence they fail with invalidScoring exactly when
the scoring is inconsistent (gap-extend above gap-open); and on every
failure the committed store is the unchanged input graph: validation
happens before any mutation, so a failed insertion is never partial. -/
theorem c4_validation (g : Graph) (s : List Char) (sc : Scoring) (w : Nat) :
    ((addSequenceW g s sc w = .error AErr.invalidSequence) ↔
      (s = [] ∨ ∃ c ∈ s, c ∉ alphabet)) ∧
    (validSeq s = true →
      ((addSequenceW g s sc w = .error AErr.invalidScoring) ↔
        sc.gapOpen < sc.gapExtend)) ∧
    (∀ e, addSequenceW g s sc w = .error e → commit g (addSequenceW g s sc w) = g) := by
  refine ⟨?_, ?_, ?_⟩
  · rw [← validSeq_false_iff]
    cases hv : validSeq s with
    | false => simp [addSequenceW, hv]
    | true =>
        simp only [addSequenceW, hv]
        cases hs : validScoring sc with
        | false => simp
        | true =>
            simp only [Bool.true_eq_false, if_false]
            cases traceback g s sc <;> simp
  · intro hv
    rw [← validScoring_false_iff]
    simp only [addSequenceW, hv]
    cases hs : validScoring sc with
    | false => simp
    | true =>
        simp only [Bool.true_eq_false, if_false]
        cases traceback g s sc <;> simp
  · intro e he
    rw [he]
    rfl

/-- C4 witness: the empty sequence is rejected with invalidSequence on the
empty store, through the theorem's first equivalence. -/
theorem c4_validation_witness :
    addSequenceW Graph.empty [] ⟨1, 2, 1⟩ 1 = .error AErr.invalidSequence :=
  (c4_validation Graph.empty [] ⟨1, 2, 1⟩ 1).1.mpr (Or.inl rfl)

/-- C8: on a store into which no sequence has been inserted, GetMSA returns
an empty-but-valid collection (zero aligned strings) and GetGFA returns an
empty-but-valid document whose parse is the empty node and edge set;
neither operation can fail. -/
theorem c8_empty_outputs :
    Graph.msa Graph.empty = [] ∧ (Graph.msa Graph.empty).length = 0 ∧
    Graph.gfa Graph.empty = [] ∧
    parseSegs (Graph.gfa Graph.empty) = [] ∧
    parseLinks (Graph.gfa Graph.empty) = [] := by
  refine ⟨rfl, rfl, rfl, rfl, rfl⟩

/-- C9: the Serializer round-trips: parsing the segment records of the GFA
document of any graph recovers exactly the node list (identifier and
symbol), and parsing the link records recovers exactly the edge list with
its weights. -/
theorem c9_gfa_roundtrip (g : Graph) :
    parseSegs (Graph.gfa g) = g.nodes.map (fun n => (n.id, n.sym)) ∧
    parseLinks (Graph.gfa g) = g.edges := by
  constructor
  · simp only [parseSegs, Graph.gfa, List.filterMap_append, List.filterMap_map]
    have h1 : ∀ l : List Node,
        l.filterMap ((fun r => match r with
          | GfaRecord.seg i c => some (i, c)
          | _ => none) ∘ (fun n => GfaRecord.seg n.id n.sym)) =
          l.map (fun n => (n.id, n.sym)) := by
      intro l
      induction l with
      | nil => rfl
      | cons a t ih => simp [List.filterMap_cons, Function.comp, ih]
    have h2 : ∀ l : List Edge,
        l.filterMap ((fun r => match r with
          | GfaRecord.seg i c => some (i, c)
          | _ => none) ∘ (fun e => GfaRecord.link e.src e.dst e.weight)) = [] := by
      intro l
      induction l with
      | nil => rfl
      | cons a t ih => simp [List.filterMap_cons, Function.comp, ih]
    have h3 : ∀ l : List (Nat × SeqRecord),
        l.filterMap ((fun r => match r with
          | GfaRecord.seg i c => some (i, c)
          | _ => none) ∘ (fun p => GfaRecord.path p.1 p.2.path)) = [] := by
      intro l
      induction l with
      | nil => rfl
      | cons a t ih => simp [List.filterMap_cons, Function.comp, ih]
    rw [h1, h2, h3, List.append_nil, List.append_nil]
  · simp only [parseLinks, Graph.gfa, List.filterMap_append, List.filterMap_map]
    have h1 : ∀ l : List Node,
        l.filterMap ((fun r => match r with
          | GfaRecord.link a b w => some (⟨a, b, w⟩ : Edge)
          | _ => none) ∘ (fun n => GfaRecord.seg n.id n.sym)) = [] := by
      intro l
      induction l with
      | nil => rfl
      | cons a t ih => simp [List.filterMap_cons, Function.comp, ih]
    have h2 : ∀ l : List Edge,
        l.filterMap ((fun r => match r with
          | GfaRecord.link a b w => some (⟨a, b, w⟩ : Edge)
          | _ => none) ∘ (fun e => GfaRecord.link e.src e.dst e.weight)) = l := by
      intro l
      induction l with
      | nil => rfl
      | cons a t ih => simp [List.filterMap_cons, Function.comp, ih]
    have h3 : ∀ l : List (Nat × SeqRecord),
        l.filterMap ((fun r => match r with
          | GfaRecord.link a b w => some (⟨a, b, w⟩ : Edge)
          | _ => none) ∘ (fun p => GfaRecord.path p.1 p.2.path)) = [] := by
      intro l
      induction l with
      | nil => rfl
      | cons a t ih => simp [List.filterMap_cons, Function.comp, ih]
    rw [h1, h2, h3, List.nil_append, List.append_nil]

/-- C10: at the public boundary, the three scoring parameters are unsigned
8-bit integers and the multiplicity weight an unsigned 32-bit integer: the
call runs the core exactly at the caller values reduced modulo 2 to the 8
(respectively 2 to the 32), every representable penalty lies in 0..255,
and an in-range value passes through unchanged. -/
theorem c10_interface_widths (g : Graph) (s : List Char) (w mm go ge : Nat) :
    poastaAddSequenceWithWeight g s w mm go ge =
      (commit g (addSequenceW g s ⟨mm % 2 ^ 8, go % 2 ^ 8, ge % 2 ^ 8⟩ (w % 2 ^ 32)),
       statusOf (addSequenceW g s ⟨mm % 2 ^ 8, go % 2 ^ 8, ge % 2 ^ 8⟩ (w % 2 ^ 32))) ∧
    clampU8 mm = mm % 2 ^ 8 ∧ clampU8 mm < 2 ^ 8 ∧ clampU32 w < 2 ^ 32 ∧
    (mm < 2 ^ 8 → clampU8 mm = mm) ∧ (w < 2 ^ 32 → clampU32 w = w) := by
  refine ⟨rfl, rfl, Nat.mod_lt _ (by norm_num), Nat.mod_lt _ (by norm_num),
    fun h => Nat.mod_eq_of_lt h, fun h => Nat.mod_eq_of_lt h⟩

/-- C10 witness: the boundary at concrete arguments; the in-range value 7
passes unchanged. -/
theorem c10_interface_widths_witness : clampU8 7 = 7 :=
  (c10_interface_widths Graph.empty ['A'] 1 7 2 1).2.2.2.2.1 (by norm_num)

theorem forall2_map_eq {α β γ : Type} {R : α → β → Prop} {f : α → γ} {g : β → γ}
    (h : ∀ a b, R a b → f a = g b) :
    ∀ {l1 : List α} {l2 : List β}, List.Forall₂ R l1 l2 → l1.map f = l2.map g := by
  intro l1 l2 hf
  induction hf with
  | nil => rfl
  | cons hab _ ih => simp only [List.map_cons, h _ _ hab, ih]

theorem forall2_append {α β : Type} {R : α → β → Prop}
    {l1 u1 : List α} {l2 u2 : List β} (h : List.Forall₂ R l1 l2)
    (h' : List.Forall₂ R u1 u2) : List.Forall₂ R (l1 ++ u1) (l2 ++ u2) := by
  induction h with
  | nil => exact h'
  | cons hab _ ih => exact .cons hab ih

theorem emitUpTo_parallel (w r : Nat) :
    ∀ (orig : List Node) (k : Nat),
      (emitUpTo w r orig k).2 = (emitUpTo 1 r orig k).2 ∧
      List.Forall₂ (fun nw n1 => nw.id = n1.id ∧ nw.sym = n1.sym ∧
          ∃ b d, n1.weight = b + d ∧ nw.weight = b + w * d)
        (emitUpTo w r orig k).1 (emitUpTo 1 r orig k).1 := by
  intro orig
  induction orig with
  | nil => intro k; exact ⟨rfl, List.Forall₂.nil⟩
  | cons n rest ih =>
      intro k
      by_cases hk : k = r
      · simp only [emitUpTo, hk, if_pos rfl]
        exact ⟨rfl, .cons ⟨rfl, rfl, n.weight, 1, by ring, by ring⟩ .nil⟩
      · simp only [emitUpTo, if_neg hk]
        exact ⟨(ih (k + 1)).1,
          .cons ⟨rfl, rfl, n.weight, 0, by ring, by ring⟩ (ih (k + 1)).2⟩

theorem forall2_nodes_refl (w : Nat) (l : List Node) :
    List.Forall₂ (fun nw n1 => nw.id = n1.id ∧ nw.sym = n1.sym ∧
        ∃ b d, n1.weight = b + d ∧ nw.weight = b + w * d) l l := by
  induction l with
  | nil => exact .nil
  | cons n rest ih => exact .cons ⟨rfl, rfl, n.weight, 0, by ring, by ring⟩ ih

theorem buildNodes_parallel (w : Nat) :
    ∀ (items : List Item) (orig : List Node) (k : Nat),
      List.Forall₂ (fun nw n1 => nw.id = n1.id ∧ nw.sym = n1.sym ∧
          ∃ b d, n1.weight = b + d ∧ nw.weight = b + w * d)
        (buildNodes w orig k items) (buildNodes 1 orig k items) := by
  intro items
  induction items with
  | nil => intro orig k; exact forall2_nodes_refl w orig
  | cons it rest ih =>
      intro orig k
      cases it with
      | new i c =>
          exact .cons ⟨rfl, rfl, 0, 1, by ring, by ring⟩ (ih orig k)
      | old r =>
          simp only [buildNodes]
          rw [(emitUpTo_parallel w r orig k).1]
          exact forall2_append (emitUpTo_parallel w r orig k).2
            (ih (emitUpTo 1 r orig k).2 (r + 1))

theorem forall2_edges_refl (w : Nat) (l : List Edge) :
    List.Forall₂ (fun ew e1 => ew.src = e1.src ∧ ew.dst = e1.dst ∧
        ∃ b t, e1.weight = b + t ∧ ew.weight = b + w * t) l l := by
  induction l with
  | nil => exact .nil
  | cons e rest ih => exact .cons ⟨rfl, rfl, e.weight, 0, by ring, by ring⟩ ih

theorem forall2_edges_any (a b : Nat) {w : Nat} :
    ∀ {esw es1 : List Edge},
      List.Forall₂ (fun ew e1 => ew.src = e1.src ∧ ew.dst = e1.dst ∧
          ∃ bb t, e1.weight = bb + t ∧ ew.weight = bb + w * t) esw es1 →
      esw.any (fun e => e.src = a && e.dst = b) =
        es1.any (fun e => e.src = a && e.dst = b) := by
  intro esw es1 h
  induction h with
  | nil => rfl
  | cons hab _ ih =>
      simp only [List.any_cons, hab.1, hab.2.1, ih]

theorem addEdge_parallel (a b : Nat) (w : Nat) :
    ∀ {esw es1 : List Edge},
      List.Forall₂ (fun ew e1 => ew.src = e1.src ∧ ew.dst = e1.dst ∧
          ∃ bb t, e1.weight = bb + t ∧ ew.weight = bb + w * t) esw es1 →
      List.Forall₂ (fun ew e1 => ew.src = e1.src ∧ ew.dst = e1.dst ∧
          ∃ bb t, e1.weight = bb + t ∧ ew.weight = bb + w * t)
        (addEdge esw a b w) (addEdge es1 a b 1) := by
  intro esw es1 h
  unfold addEdge
  rw [forall2_edges_any a b h]
  by_cases hex : es1.any (fun e => e.src = a && e.dst = b) = true
  · rw [if_pos hex, if_pos hex]
    clear hex
    induction h with
    | nil => exact .nil
    | cons hab hrest ih =>
        rename_i ew e1 tw t1
        obtain ⟨hsrc, hdst, bb, t, h1, hww⟩ := hab
        simp only [List.map_cons]
        refine .cons ?_ ih
        by_cases hmatch : e1.src = a ∧ e1.dst = b
        · have hb1 : (e1.src = a && e1.dst = b) = true := by
            simp only [Bool.and_eq_true, decide_eq_true_eq]; exact hmatch
          have hbw : (ew.src = a && ew.dst = b) = true := by
            simp only [Bool.and_eq_true, decide_eq_true_eq, hsrc, hdst]
            exact hmatch
          rw [if_pos hb1, if_pos hbw]
          refine ⟨hsrc, hdst, bb, t + 1, ?_, ?_⟩
          · show e1.weight + 1 = bb + (t + 1)
            omega
          · show ew.weight + w = bb + w * (t + 1)
            rw [hww]; ring
        · have hb1 : ¬ (e1.src = a && e1.dst = b) = true := by
            simp only [Bool.and_eq_true, decide_eq_true_eq]; exact hmatch
          have hbw : ¬ (ew.src = a && ew.dst = b) = true := by
            simp only [Bool.and_eq_true, decide_eq_true_eq, hsrc, hdst]
            exact hmatch
          rw [if_neg hb1, if_neg hbw]
          exact ⟨hsrc, hdst, bb, t, h1, hww⟩
  · rw [if_neg hex, if_neg hex]
    exact forall2_append h (.cons ⟨rfl, rfl, 0, 1, by ring, by ring⟩ .nil)

theorem addPathEdges_parallel (w : Nat) :
    ∀ (rids : List Nat) {esw es1 : List Edge},
      List.Forall₂ (fun ew e1 => ew.src = e1.src ∧ ew.dst = e1.dst ∧
          ∃ bb t, e1.weight = bb + t ∧ ew.weight = bb + w * t) esw es1 →
      List.Forall₂ (fun ew e1 => ew.src = e1.src ∧ ew.dst = e1.dst ∧
          ∃ bb t, e1.weight = bb + t ∧ ew.weight = bb + w * t)
        (addPathEdges esw w rids) (addPathEdges es1 1 rids) := by
  intro rids
  induction rids with
  | nil => intro esw es1 h; exact h
  | cons a rest ih =>
      intro esw es1 h
      cases rest with
      | nil => exact h
      | cons b rest' => exact ih (addEdge_parallel a b w h)

/-- C2 counterexample: with the store built by inserting the sequence AA
into the empty graph (scoring mismatch 2, gap-open 1, gap-extend 0),
inserting CCA once with multiplicity weight 2 does not yield the same
graph structure as inserting CCA twice with AddSequence: the second
unweighted insertion re-aligns its final residue to a different node, so
the two runs do not even share an edge set, and in particular the weighted
run's weights are not the unweighted run's weights scaled by 2. -/
theorem c2_weight_scaling_counterexample :
    statusOf (addSequence Graph.empty ['A', 'A'] ⟨2, 1, 0⟩) = 0 ∧
    statusOf (addSequenceW
      (commit Graph.empty (addSequence Graph.empty ['A', 'A'] ⟨2, 1, 0⟩))
      ['C', 'C', 'A'] ⟨2, 1, 0⟩ 2) = 0 ∧
    statusOf (addSequence
      (commit Graph.empty (addSequence Graph.empty ['A', 'A'] ⟨2, 1, 0⟩))
      ['C', 'C', 'A'] ⟨2, 1, 0⟩) = 0 ∧
    statusOf (addSequence
      (commit (commit Graph.empty (addSequence Graph.empty ['A', 'A'] ⟨2, 1, 0⟩))
        (addSequence
          (commit Graph.empty (addSequence Graph.empty ['A', 'A'] ⟨2, 1, 0⟩))
          ['C', 'C', 'A'] ⟨2, 1, 0⟩))
      ['C', 'C', 'A'] ⟨2, 1, 0⟩) = 0 ∧
    ¬ ((commit
          (commit Graph.empty (addSequence Graph.empty ['A', 'A'] ⟨2, 1, 0⟩))
          (addSequenceW
            (commit Graph.empty (addSequence Graph.empty ['A', 'A'] ⟨2, 1, 0⟩))
            ['C', 'C', 'A'] ⟨2, 1, 0⟩ 2)).edges.map edgeShape =
        (commit
          (commit (commit Graph.empty (addSequence Graph.empty ['A', 'A'] ⟨2, 1, 0⟩))
            (addSequence
              (commit Graph.empty (addSequence Graph.empty ['A', 'A'] ⟨2, 1, 0⟩))
              ['C', 'C', 'A'] ⟨2, 1, 0⟩))
          (addSequence
            (commit (commit Graph.empty (addSequence Graph.empty ['A', 'A'] ⟨2, 1, 0⟩))
              (addSequence
                (commit Graph.empty (addSequence Graph.empty ['A', 'A'] ⟨2, 1, 0⟩))
                ['C', 'C', 'A'] ⟨2, 1, 0⟩))
            ['C', 'C', 'A'] ⟨2, 1, 0⟩)).edges.map edgeShape) := by
  decide

/-- C2 amended: weighted insertion is equivalent to a single unweighted
insertion with all weight increments scaled: inserting s once with weight
w from any graph state yields exactly the same structure (node identifiers
and symbols, edge endpoints, recorded paths, identifier supply) as one
AddSequence call, and every node and edge weight satisfies: the
unweighted run's weight is some base plus an increment d, and the
weighted run's weight is the same base plus w times d. -/
theorem c2_weight_scaling (g : Graph) (s : List Char) (sc : Scoring) (w : Nat)
    (g1 gw : Graph) (h1 : addSequenceW g s sc 1 = .ok g1)
    (hw : addSequenceW g s sc w = .ok gw) :
    gw.nodes.map nodeShape = g1.nodes.map nodeShape ∧
    gw.edges.map edgeShape = g1.edges.map edgeShape ∧
    List.Forall₂ (fun nw n1 => ∃ b d, n1.weight = b + d ∧ nw.weight = b + w * d)
      gw.nodes g1.nodes ∧
    List.Forall₂ (fun ew e1 => ∃ b t, e1.weight = b + t ∧ ew.weight = b + w * t)
      gw.edges g1.edges ∧
    gw.seqs.map SeqRecord.path = g1.seqs.map SeqRecord.path ∧
    gw.nextId = g1.nextId := by
  unfold addSequenceW at h1 hw
  by_cases hv : validSeq s = false
  · rw [if_pos hv] at h1; exact absurd h1 (by simp)
  · rw [if_neg hv] at h1 hw
    by_cases hsc : validScoring sc = false
    · rw [if_pos hsc] at h1; exact absurd h1 (by simp)
    · rw [if_neg hsc] at h1 hw
      cases htb : traceback g s sc with
      | none => rw [htb] at h1; exact absurd h1 (by simp)
      | some steps =>
          rw [htb] at h1 hw
          have hg1 : g1 = mutate g s 1 (positionsOf g s steps) := by
            cases h1; rfl
          have hgw : gw = mutate g s w (positionsOf g s steps) := by
            cases hw; rfl
          subst hg1; subst hgw
          unfold mutate
          have hn := buildNodes_parallel w
            (realize g.nextId (s.zip (positionsOf g s steps))) g.nodes 0
          have he := addPathEdges_parallel w
            ((realize g.nextId (s.zip (positionsOf g s steps))).map (itemId g))
            (forall2_edges_refl w g.edges)
          refine ⟨?_, ?_, ?_, ?_, by simp, rfl⟩
          · exact forall2_map_eq
              (fun a b hr => by simp [nodeShape, hr.1, hr.2.1]) hn
          · exact forall2_map_eq
              (fun a b hr => by simp [edgeShape, hr.1, hr.2.1]) he
          · exact hn.imp (fun _ _ hr => hr.2.2)
          · exact he.imp (fun _ _ hr => hr.2.2)

theorem oadd_eq_some {o : Option Int} {c v : Int} :
    oadd o c = some v ↔ ∃ v', o = some v' ∧ v = v' + c := by
  cases o with
  | none => simp [oadd]
  | some a =>
      constructor
      · intro h
        exact ⟨a, rfl, (Option.some.inj h).symm⟩
      · rintro ⟨v', hv', rfl⟩
        cases hv'
        rfl

theorem osub_eq_some {o : Option Int} {c : Nat} {v : Int} :
    osub o c = some v ↔ ∃ v', o = some v' ∧ v = v' - (c : Int) := by
  cases o with
  | none => simp [osub]
  | some a =>
      constructor
      · intro h
        exact ⟨a, rfl, (Option.some.inj h).symm⟩
      · rintro ⟨v', hv', rfl⟩
        cases hv'
        rfl

theorem scoreF_m_none_zero (g : Graph) (s : List Char) (sc : Scoring)
    {f : Nat} (hf : 0 < f) : scoreF g s sc f .m none 0 = some 0 := by
  cases f with
  | zero => exact absurd hf (by omega)
  | succ f' => rfl

theorem bigFuel_pos (g : Graph) (s : List Char) : 0 < bigFuel g s := by
  unfold bigFuel
  positivity

theorem score_m_none_zero (g : Graph) (s : List Char) (sc : Scoring) :
    score g s sc .m none 0 = some 0 :=
  scoreF_m_none_zero g s sc (bigFuel_pos g s)

/-- The traceback fold invariant: a successful traceback from a cell whose
stored score is v folds, under the independent rescoring scan, to exactly
(v, cell matrix). -/
theorem tb_fold (g : Graph) (s : List Char) (sc : Scoring) :
    ∀ (fuel : Nat) (mat : Mat) (p : Option Nat) (j : Nat)
      (steps : List Step) (v : Int),
      tbF g s sc fuel mat p j = some steps →
      score g s sc mat p j = some v →
      steps.foldl (fun acc st =>
        match st with
        | Step.mat r jj =>
            (acc.1 + subScore sc (s.getD jj 'A') (symOfRank g r), Mat.m)
        | Step.del _ =>
            (acc.1 - (if acc.2 = Mat.y then (sc.gapExtend : Int) else (sc.gapOpen : Int)),
             Mat.y)
        | Step.ins _ =>
            (acc.1 - (if acc.2 = Mat.x then (sc.gapExtend : Int) else (sc.gapOpen : Int)),
             Mat.x)) ((0 : Int), Mat.m) = (v, mat) := by
  intro fuel
  induction fuel with
  | zero =>
      intro mat p j steps v htb _
      exact absurd htb (by simp [tbF])
  | succ f ih =>
      intro mat p j steps v htb hsc
      cases mat with
      | m =>
          cases p with
          | none =>
              simp only [tbF] at htb
              by_cases hj : j = 0
              · subst hj
                rw [if_pos rfl] at htb
                cases htb
                rw [score_m_none_zero g s sc] at hsc
                cases hsc
                rfl
              · rw [if_neg hj] at htb
                exact absurd htb (by simp)
          | some r =>
              cases j with
              | zero => exact absurd htb (by simp [tbF])
              | succ j' =>
                  simp only [tbF, hsc] at htb
                  cases hf : (cands g .m (some r)).find?
                      (candCheck g s sc .m (some r) (j' + 1) v) with
                  | none => simp only [hf] at htb; exact absurd htb (by simp)
                  | some c =>
                      obtain ⟨mt, u⟩ := c
                      simp only [hf] at htb
                      obtain ⟨pre, hpre, rfl⟩ := Option.map_eq_some'.mp htb
                      have hchk := List.find?_some hf
                      simp only [candCheck, decide_eq_true_eq] at hchk
                      obtain ⟨v', hv', rfl⟩ := oadd_eq_some.mp hchk
                      have hfold := ih mt u j' pre v' hpre hv'
                      rw [List.foldl_append, hfold]
                      rfl
      | y =>
          cases p with
          | none => exact absurd htb (by simp [tbF])
          | some r =>
              simp only [tbF, hsc] at htb
              cases hf : (cands g .y (some r)).find?
                  (candCheck g s sc .y (some r) j v) with
              | none => simp only [hf] at htb; exact absurd htb (by simp)
              | some c =>
                  obtain ⟨mt, u⟩ := c
                  simp only [hf] at htb
                  obtain ⟨pre, hpre, rfl⟩ := Option.map_eq_some'.mp htb
                  have hchk := List.find?_some hf
                  cases mt with
                  | m =>
                      simp only [candCheck, decide_eq_true_eq] at hchk
                      obtain ⟨v', hv', rfl⟩ := osub_eq_some.mp hchk
                      have hfold := ih .m u j pre v' hpre hv'
                      rw [List.foldl_append, hfold]
                      rfl
                  | y =>
                      simp only [candCheck, decide_eq_true_eq] at hchk
                      obtain ⟨v', hv', rfl⟩ := osub_eq_some.mp hchk
                      have hfold := ih .y u j pre v' hpre hv'
                      rw [List.foldl_append, hfold]
                      rfl
                  | x => simp [candCheck] at hchk
      | x =>
          cases j with
          | zero =>
              cases p with
              | none => exact absurd htb (by simp [tbF])
              | some r => exact absurd htb (by simp [tbF])
          | succ j' =>
              cases p with
              | none =>
                  simp only [tbF, hsc] at htb
                  cases hf : (cands g .x none).find?
                      (candCheck g s sc .x none (j' + 1) v) with
                  | none => simp only [hf] at htb; exact absurd htb (by simp)
                  | some c =>
                      obtain ⟨mt, u⟩ := c
                      simp only [hf] at htb
                      obtain ⟨pre, hpre, rfl⟩ := Option.map_eq_some'.mp htb
                      have hchk := List.find?_some hf
                      have hmem := List.mem_of_find?_eq_some hf
                      simp only [cands, List.mem_cons, List.mem_singleton,
                        Prod.mk.injEq, List.not_mem_nil, or_false] at hmem
                      cases hmem with
                      | inl hc =>
                          obtain ⟨hmt, hu⟩ := hc
                          subst hmt; subst hu
                          simp only [candCheck, decide_eq_true_eq] at hchk
                          obtain ⟨v', hv', rfl⟩ := osub_eq_some.mp hchk
                          have hfold := ih .m none j' pre v' hpre hv'
                          rw [List.foldl_append, hfold]
                          rfl
                      | inr hc =>
                          obtain ⟨hmt, hu⟩ := hc
                          subst hmt; subst hu
                          simp only [candCheck, decide_eq_true_eq] at hchk
                          obtain ⟨v', hv', rfl⟩ := osub_eq_some.mp hchk
                          have hfold := ih .x none j' pre v' hpre hv'
                          rw [List.foldl_append, hfold]
                          rfl
              | some r =>
                  simp only [tbF, hsc] at htb
                  cases hf : (cands g .x (some r)).find?
                      (candCheck g s sc .x (some r) (j' + 1) v) with
                  | none => simp only [hf] at htb; exact absurd htb (by simp)
                  | some c =>
                      obtain ⟨mt, u⟩ := c
                      simp only [hf] at htb
                      obtain ⟨pre, hpre, rfl⟩ := Option.map_eq_some'.mp htb
                      have hchk := List.find?_some hf
                      have hmem := List.mem_of_find?_eq_some hf
                      simp only [cands, List.mem_cons, List.mem_singleton,
                        Prod.mk.injEq, List.not_mem_nil, or_false] at hmem
                      cases hmem with
                      | inl hc =>
                          obtain ⟨hmt, hu⟩ := hc
                          subst hmt; subst hu
                          simp only [candCheck, decide_eq_true_eq] at hchk
                          obtain ⟨v', hv', rfl⟩ := osub_eq_some.mp hchk
                          have hfold := ih .m (some r) j' pre v' hpre hv'
                          rw [List.foldl_append, hfold]
                          rfl
                      | inr hc =>
                          obtain ⟨hmt, hu⟩ := hc
                          subst hmt; subst hu
                          simp only [candCheck, decide_eq_true_eq] at hchk
                          obtain ⟨v', hv', rfl⟩ := osub_eq_some.mp hchk
                          have hfold := ih .x (some r) j' pre v' hpre hv'
                          rw [List.foldl_append, hfold]
                          rfl

/-- C3: internal consistency of the aligner: whenever the traceback
returns a path, the maximum score of the dynamic-programming recurrence
(the final score at the sink) equals the score obtained by independently
summing the match, mismatch, gap-open and gap-extend contributions along
that traceback path. -/
theorem c3_score_consistency (g : Graph) (s : List Char) (sc : Scoring)
    (steps : List Step) (h : traceback g s sc = some steps) :
    finalScore g s sc = some (scoreOfSteps g s sc steps) := by
  unfold traceback at h
  cases hfin : finalScore g s sc with
  | none => exact absurd h (by simp [hfin, traceback])
  | some v =>
      simp only [hfin] at h
      cases hf : (([Mat.m, Mat.y, Mat.x]).flatMap
          (fun mt => (sortCands g (sinkCands g)).map (fun u => (mt, u)))).find?
          (fun c => decide (score g s sc c.1 c.2 s.length = some v)) with
      | none => simp only [hf] at h; exact absurd h (by simp)
      | some c =>
          obtain ⟨mt, u⟩ := c
          simp only [hf] at h
          have hchk := List.find?_some hf
          simp only [decide_eq_true_eq] at hchk
          have hfold := tb_fold g s sc (bigFuel g s) mt u s.length steps v h hchk
          have : scoreOfSteps g s sc steps = v := by
            unfold scoreOfSteps
            rw [hfold]
          rw [this]

/-- C3 witness: the consistency at a concrete instance: aligning the
sequence AG against the chain store of ACT. -/
theorem c3_score_consistency_witness :
    finalScore (chainGraph ['A', 'C', 'T'] 1) ['A', 'G'] ⟨1, 1, 1⟩ =
      some (scoreOfSteps (chainGraph ['A', 'C', 'T'] 1) ['A', 'G'] ⟨1, 1, 1⟩
        [Step.mat 0 0, Step.del 1, Step.mat 2 1]) :=
  c3_score_consistency (chainGraph ['A', 'C', 'T'] 1) ['A', 'G'] ⟨1, 1, 1⟩
    [Step.mat 0 0, Step.del 1, Step.mat 2 1] (by rfl)

/-- C2 amended witness: the scaling equivalence at a concrete instance:
inserting the single-residue sequence A into the empty store with weight 3
versus weight 1. -/
theorem c2_weight_scaling_witness :
    (⟨[⟨0, 'A', 3⟩], [], [⟨['A'], 3, [0]⟩], 1⟩ : Graph).nodes.map nodeShape =
      (⟨[⟨0, 'A', 1⟩], [], [⟨['A'], 1, [0]⟩], 1⟩ : Graph).nodes.map nodeShape ∧
    (⟨[⟨0, 'A', 3⟩], [], [⟨['A'], 3, [0]⟩], 1⟩ : Graph).edges.map edgeShape =
      (⟨[⟨0, 'A', 1⟩], [], [⟨['A'], 1, [0]⟩], 1⟩ : Graph).edges.map edgeShape ∧
    List.Forall₂ (fun nw n1 => ∃ b d, n1.weight = b + d ∧ nw.weight = b + 3 * d)
      (⟨[⟨0, 'A', 3⟩], [], [⟨['A'], 3, [0]⟩], 1⟩ : Graph).nodes
      (⟨[⟨0, 'A', 1⟩], [], [⟨['A'], 1, [0]⟩], 1⟩ : Graph).nodes ∧
    List.Forall₂ (fun ew e1 => ∃ b t, e1.weight = b + t ∧ ew.weight = b + 3 * t)
      (⟨[⟨0, 'A', 3⟩], [], [⟨['A'], 3, [0]⟩], 1⟩ : Graph).edges
      (⟨[⟨0, 'A', 1⟩], [], [⟨['A'], 1, [0]⟩], 1⟩ : Graph).edges ∧
    (⟨[⟨0, 'A', 3⟩], [], [⟨['A'], 3, [0]⟩], 1⟩ : Graph).seqs.map SeqRecord.path =
      (⟨[⟨0, 'A', 1⟩], [], [⟨['A'], 1, [0]⟩], 1⟩ : Graph).seqs.map SeqRecord.path ∧
    (⟨[⟨0, 'A', 3⟩], [], [⟨['A'], 3, [0]⟩], 1⟩ : Graph).nextId =
      (⟨[⟨0, 'A', 1⟩], [], [⟨['A'], 1, [0]⟩], 1⟩ : Graph).nextId :=
  c2_weight_scaling Graph.empty ['A'] ⟨1, 2, 1⟩ 3 _ _ (by rfl) (by rfl)

theorem omax_none_right (a : Option Int) : omax a none = a := by
  cases a <;> rfl

theorem scoreF_m_none_succ (g : Graph) (s : List Char) (sc : Scoring)
    (f j : Nat) : scoreF g s sc f .m none (j + 1) = none := by
  cases f with
  | zero => rfl
  | succ f' => simp [scoreF]

theorem scoreF_y_none (g : Graph) (s : List Char) (sc : Scoring)
    (f j : Nat) : scoreF g s sc f .y none j = none := by
  cases f with
  | zero => rfl
  | succ f' => rfl

theorem scoreF_x_none_zero (g : Graph) (s : List Char) (sc : Scoring)
    (f : Nat) : scoreF g s sc f .x none 0 = none := by
  cases f with
  | zero => rfl
  | succ f' => rfl

theorem scoreF_x_none (g : Graph) (s : List Char) (sc : Scoring) :
    ∀ (j f : Nat), j + 2 ≤ f →
      scoreF g s sc f .x none (j + 1) =
        some (-(sc.gapOpen : Int) - (j : Int) * (sc.gapExtend : Int)) := by
  intro j
  induction j with
  | zero =>
      intro f hf
      obtain ⟨f', rfl⟩ : ∃ f', f = f' + 1 := ⟨f - 1, by omega⟩
      simp only [scoreF]
      rw [scoreF_m_none_zero g s sc (by omega), scoreF_x_none_zero]
      show omax (some (0 - (sc.gapOpen : Int))) none = _
      rw [omax_none_right]
      norm_num
  | succ jj ih =>
      intro f hf
      obtain ⟨f', rfl⟩ : ∃ f', f = f' + 1 := ⟨f - 1, by omega⟩
      simp only [scoreF]
      rw [scoreF_m_none_succ, ih f' (by omega)]
      show omax none (some (-(sc.gapOpen : Int) - (jj : Int) * sc.gapExtend
        - sc.gapExtend)) = _
      show some (-(sc.gapOpen : Int) - (jj : Int) * sc.gapExtend
        - sc.gapExtend) = _
      congr 1
      push_cast
      ring

theorem bigFuel_empty (s : List Char) :
    bigFuel Graph.empty s = 2 * s.length + 2 := by
  show (s.length + 1) * (0 + 2) = 2 * s.length + 2
  ring

theorem score_x_none_empty (s : List Char) (sc : Scoring) (j : Nat)
    (hj : j + 1 ≤ s.length) :
    score Graph.empty s sc .x none (j + 1) =
      some (-(sc.gapOpen : Int) - (j : Int) * (sc.gapExtend : Int)) := by
  apply scoreF_x_none
  rw [bigFuel_empty]
  omega

theorem finalScore_empty (s : List Char) (sc : Scoring) (m' : Nat)
    (hm : s.length = m' + 1) :
    finalScore Graph.empty s sc =
      some (-(sc.gapOpen : Int) - (m' : Int) * (sc.gapExtend : Int)) := by
  have hsink : sinkCands Graph.empty = [none] := rfl
  unfold finalScore
  rw [hsink]
  show omax (bestAt Graph.empty s sc none s.length) none = _
  rw [omax_none_right]
  unfold bestAt
  rw [hm]
  show omax (scoreF Graph.empty s sc (bigFuel Graph.empty s) .m none (m' + 1))
    (omax (score Graph.empty s sc .x none (m' + 1))
      (scoreF Graph.empty s sc (bigFuel Graph.empty s) .y none (m' + 1))) = _
  rw [scoreF_m_none_succ, scoreF_y_none, omax_none_right,
    score_x_none_empty s sc m' (by omega)]
  rfl

theorem tbF_m_none_zero (g : Graph) (s : List Char) (sc : Scoring)
    {f : Nat} (hf : 0 < f) : tbF g s sc f .m none 0 = some [] := by
  obtain ⟨f', rfl⟩ : ∃ f', f = f' + 1 := ⟨f - 1, by omega⟩
  rfl

theorem tbF_x_step (g : Graph) (s : List Char) (sc : Scoring)
    (f j : Nat) (p : Option Nat) {v : Int} {c : Mat × Option Nat}
    (hv : score g s sc .x p (j + 1) = some v)
    (hfind : (cands g .x p).find? (candCheck g s sc .x p (j + 1) v) = some c) :
    tbF g s sc (f + 1) .x p (j + 1) =
      (tbF g s sc f c.1 c.2 j).map (fun l => l ++ [Step.ins j]) := by
  obtain ⟨mt, u⟩ := c
  cases p with
  | none => simp only [tbF, hv, hfind]
  | some r => simp only [tbF, hv, hfind]

theorem tbF_m_step (g : Graph) (s : List Char) (sc : Scoring)
    (f j : Nat) (r : Nat) {v : Int} {c : Mat × Option Nat}
    (hv : score g s sc .m (some r) (j + 1) = some v)
    (hfind : (cands g .m (some r)).find?
      (candCheck g s sc .m (some r) (j + 1) v) = some c) :
    tbF g s sc (f + 1) .m (some r) (j + 1) =
      (tbF g s sc f c.1 c.2 j).map (fun l => l ++ [Step.mat r j]) := by
  obtain ⟨mt, u⟩ := c
  simp only [tbF, hv, hfind]

theorem tbF_y_step (g : Graph) (s : List Char) (sc : Scoring)
    (f j : Nat) (r : Nat) {v : Int} {c : Mat × Option Nat}
    (hv : score g s sc .y (some r) j = some v)
    (hfind : (cands g .y (some r)).find?
      (candCheck g s sc .y (some r) j v) = some c) :
    tbF g s sc (f + 1) .y (some r) j =
      (tbF g s sc f c.1 c.2 j).map (fun l => l ++ [Step.del r]) := by
  obtain ⟨mt, u⟩ := c
  simp only [tbF, hv, hfind]

theorem traceback_step (g : Graph) (s : List Char) (sc : Scoring) {v : Int}
    {c : Mat × Option Nat}
    (hv : finalScore g s sc = some v)
    (hfind : (([Mat.m, Mat.y, Mat.x]).flatMap
        (fun mt => (sortCands g (sinkCands g)).map (fun u => (mt, u)))).find?
        (fun c => decide (score g s sc c.1 c.2 s.length = some v)) = some c) :
    traceback g s sc = tbF g s sc (bigFuel g s) c.1 c.2 s.length := by
  obtain ⟨mt, u⟩ := c
  unfold traceback
  simp only [hv, hfind]

theorem tbF_x_empty (s : List Char) (sc : Scoring) :
    ∀ (j f : Nat), j + 2 ≤ f → j + 1 ≤ s.length →
      tbF Graph.empty s sc f .x none (j + 1) =
        some ((List.range (j + 1)).map Step.ins) := by
  intro j
  induction j with
  | zero =>
      intro f hf hs
      obtain ⟨f', rfl⟩ : ∃ f', f = f' + 1 := ⟨f - 1, by omega⟩
      have hv := score_x_none_empty s sc 0 hs
      have hchk : candCheck Graph.empty s sc .x none 1
          (-(sc.gapOpen : Int) - ((0 : Nat) : Int) * (sc.gapExtend : Int))
          (Mat.m, none) = true := by
        simp only [candCheck, decide_eq_true_eq]
        rw [show score Graph.empty s sc .m none 0 = some 0 from
          score_m_none_zero Graph.empty s sc]
        show some (0 - (sc.gapOpen : Int)) = _
        congr 1
        push_cast
        ring
      have hfind : (cands Graph.empty .x none).find?
          (candCheck Graph.empty s sc .x none 1
            (-(sc.gapOpen : Int) - ((0 : Nat) : Int) * (sc.gapExtend : Int))) =
          some (Mat.m, none) := by
        show List.find? _ [(Mat.m, none), (Mat.x, none)] = _
        rw [List.find?_cons_of_pos _ hchk]
      rw [tbF_x_step Graph.empty s sc f' 0 none hv hfind]
      rw [tbF_m_none_zero Graph.empty s sc (by omega)]
      rfl
  | succ jj ih =>
      intro f hf hs
      obtain ⟨f', rfl⟩ : ∃ f', f = f' + 1 := ⟨f - 1, by omega⟩
      have hv := score_x_none_empty s sc (jj + 1) hs
      have hchk1 : candCheck Graph.empty s sc .x none (jj + 1 + 1)
          (-(sc.gapOpen : Int) - ((jj + 1 : Nat) : Int) * (sc.gapExtend : Int))
          (Mat.m, none) = false := by
        simp only [candCheck, decide_eq_false_iff_not]
        rw [show score Graph.empty s sc .m none (jj + 1) = none from
          scoreF_m_none_succ Graph.empty s sc _ _]
        simp [osub]
      have hchk2 : candCheck Graph.empty s sc .x none (jj + 1 + 1)
          (-(sc.gapOpen : Int) - ((jj + 1 : Nat) : Int) * (sc.gapExtend : Int))
          (Mat.x, none) = true := by
        simp only [candCheck, decide_eq_true_eq]
        rw [score_x_none_empty s sc jj (by omega)]
        show some (-(sc.gapOpen : Int) - ((jj : Nat) : Int) * sc.gapExtend
          - sc.gapExtend) = _
        congr 1
        push_cast
        ring
      have hfind : (cands Graph.empty .x none).find?
          (candCheck Graph.empty s sc .x none (jj + 1 + 1)
            (-(sc.gapOpen : Int) - ((jj + 1 : Nat) : Int) * (sc.gapExtend : Int))) =
          some (Mat.x, none) := by
        show List.find? _ [(Mat.m, none), (Mat.x, none)] = _
        rw [List.find?_cons_of_neg _ (by rw [hchk1]; exact Bool.false_ne_true),
          List.find?_cons_of_pos _ hchk2]
      rw [tbF_x_step Graph.empty s sc f' (jj + 1) none hv hfind]
      rw [ih f' (by omega) (by omega)]
      show some ((List.range (jj + 1)).map Step.ins ++ [Step.ins (jj + 1)]) = _
      have hr := List.range_succ (jj + 1)
      rw [show List.range (jj + 1 + 1) = List.range (jj + 1) ++ [jj + 1] from hr]
      simp

theorem traceback_empty (s : List Char) (sc : Scoring) (m' : Nat)
    (hm : s.length = m' + 1) :
    traceback Graph.empty s sc = some ((List.range (m' + 1)).map Step.ins) := by
  have hv := finalScore_empty s sc m' hm
  have hlist : (([Mat.m, Mat.y, Mat.x]).flatMap
      (fun mt => (sortCands Graph.empty (sinkCands Graph.empty)).map
        (fun u => (mt, u)))) =
      [(Mat.m, (none : Option Nat)), (Mat.y, none), (Mat.x, none)] := rfl
  have h1 : decide (score Graph.empty s sc Mat.m none s.length =
      some (-(sc.gapOpen : Int) - ((m' : Nat) : Int) * (sc.gapExtend : Int))) =
      false := by
    rw [hm]
    rw [show score Graph.empty s sc .m none (m' + 1) = none from
      scoreF_m_none_succ Graph.empty s sc _ _]
    simp
  have h2 : decide (score Graph.empty s sc Mat.y none s.length =
      some (-(sc.gapOpen : Int) - ((m' : Nat) : Int) * (sc.gapExtend : Int))) =
      false := by
    rw [show score Graph.empty s sc .y none s.length = none from
      scoreF_y_none Graph.empty s sc _ _]
    simp
  have h3 : decide (score Graph.empty s sc Mat.x none s.length =
      some (-(sc.gapOpen : Int) - ((m' : Nat) : Int) * (sc.gapExtend : Int))) =
      true := by
    rw [hm]
    rw [score_x_none_empty s sc m' (by omega)]
    simp
  have hfind : (([Mat.m, Mat.y, Mat.x]).flatMap
      (fun mt => (sortCands Graph.empty (sinkCands Graph.empty)).map
        (fun u => (mt, u)))).find?
      (fun c => decide (score Graph.empty s sc c.1 c.2 s.length =
        some (-(sc.gapOpen : Int) - ((m' : Nat) : Int) * (sc.gapExtend : Int)))) =
      some (Mat.x, none) := by
    rw [hlist]
    simp only [List.find?, h1, h2, h3]
  rw [traceback_step Graph.empty s sc hv hfind]
  rw [hm]
  exact tbF_x_empty s sc m' (bigFuel Graph.empty s)
    (by rw [bigFuel_empty]; omega) (by omega)

theorem positionsOf_ins (g : Graph) (s : List Char) :
    ∀ l : List Nat, positionsOf g s (l.map Step.ins) =
      l.map (fun _ => PosA.fresh) := by
  intro l
  induction l with
  | nil => rfl
  | cons a t ih =>
      simp only [List.map_cons, positionsOf, List.filterMap_cons]
      simpa [positionsOf] using ih

theorem map_const_fresh (l : List Nat) :
    l.map (fun _ => PosA.fresh) = List.replicate l.length PosA.fresh := by
  induction l with
  | nil => rfl
  | cons a t ih => simp [List.replicate_succ, ih]

theorem realize_fresh_nodes (w : Nat) :
    ∀ (s : List Char) (nid : Nat),
      buildNodes w [] 0
        (realize nid (s.zip (List.replicate s.length PosA.fresh))) =
      chainNodes w nid s := by
  intro s
  induction s with
  | nil => intro nid; rfl
  | cons c t ih =>
      intro nid
      show buildNodes w [] 0 (Item.new nid c ::
        realize (nid + 1) (t.zip (List.replicate t.length PosA.fresh))) = _
      show (⟨nid, c, w⟩ : Node) :: buildNodes w [] 0
        (realize (nid + 1) (t.zip (List.replicate t.length PosA.fresh))) = _
      rw [ih (nid + 1)]
      rfl

theorem realize_fresh_ids (g : Graph) :
    ∀ (s : List Char) (nid : Nat),
      (realize nid (s.zip (List.replicate s.length PosA.fresh))).map (itemId g) =
        List.range' nid s.length := by
  intro s
  induction s with
  | nil => intro nid; rfl
  | cons c t ih =>
      intro nid
      show itemId g (Item.new nid c) ::
        (realize (nid + 1) (t.zip (List.replicate t.length PosA.fresh))).map
          (itemId g) = _
      rw [ih (nid + 1)]
      rfl

theorem realize_fresh_count :
    ∀ (s : List Char) (nid : Nat),
      (realize nid (s.zip (List.replicate s.length PosA.fresh))).countP isNew =
        s.length := by
  intro s
  induction s with
  | nil => intro nid; rfl
  | cons c t ih =>
      intro nid
      show (Item.new nid c ::
        realize (nid + 1) (t.zip (List.replicate t.length PosA.fresh))).countP
          isNew = _
      rw [List.countP_cons_of_pos _ _ (by rfl), ih (nid + 1)]
      rfl

theorem addPathEdges_chain (w : Nat) :
    ∀ (s : List Char) (i : Nat) (es : List Edge),
      (∀ e ∈ es, e.src < i) →
      addPathEdges es w (List.range' i s.length) = es ++ chainEdges w i s := by
  intro s
  induction s with
  | nil => intro i es _; simp [addPathEdges, chainEdges]
  | cons c1 t ih =>
      intro i es hes
      cases t with
      | nil =>
          show addPathEdges es w [i] = es ++ chainEdges w i [c1]
          simp [addPathEdges, chainEdges]
      | cons c2 t' =>
          have hr : List.range' i (c1 :: c2 :: t').length =
              i :: (i + 1) :: List.range' (i + 2) t'.length := by
            simp [List.range'_succ]
          rw [hr]
          show addPathEdges (addEdge es i (i + 1) w) w
            ((i + 1) :: List.range' (i + 2) t'.length) = _
          have hae : addEdge es i (i + 1) w = es ++ [⟨i, i + 1, w⟩] := by
            unfold addEdge
            rw [if_neg]
            intro hany
            obtain ⟨e, hemem, hsd⟩ := List.any_eq_true.mp hany
            have := hes e hemem
            simp only [Bool.and_eq_true, decide_eq_true_eq] at hsd
            omega
          rw [hae]
          have hr2 : (i + 1) :: List.range' (i + 2) t'.length =
              List.range' (i + 1) (c2 :: t').length := by
            simp [List.range'_succ]
          rw [hr2]
          have hih := ih (i + 1) (es ++ [(⟨i, i + 1, w⟩ : Edge)]) (by
            intro e hemem
            rcases List.mem_append.mp hemem with hm | hm
            · exact Nat.lt_succ_of_lt (hes e hm)
            · rcases List.mem_singleton.mp hm with rfl
              exact Nat.lt_succ_self i)
          rw [hih, List.append_assoc]
          rfl

/-- A single insertion of a valid sequence into the empty store produces
exactly the chain graph spelling the sequence. -/
theorem addSequenceW_empty (s : List Char) (sc : Scoring) (w : Nat)
    (hs : validSeq s = true) (hsc : validScoring sc = true) :
    addSequenceW Graph.empty s sc w = .ok (chainGraph s w) := by
  obtain ⟨hne, _⟩ := (validSeq_true_iff s).mp hs
  obtain ⟨c, t, rfl⟩ : ∃ c t, s = c :: t := by
    cases s with
    | nil => exact absurd rfl hne
    | cons c t => exact ⟨c, t, rfl⟩
  unfold addSequenceW
  rw [if_neg (by simp [hs]), if_neg (by simp [hsc])]
  rw [traceback_empty (c :: t) sc t.length (by simp)]
  show Except.ok (mutate Graph.empty (c :: t) w
    (positionsOf Graph.empty (c :: t)
      ((List.range (t.length + 1)).map Step.ins))) = _
  rw [positionsOf_ins, map_const_fresh]
  have hlen : (List.range (t.length + 1)).length = (c :: t).length := by simp
  rw [hlen]
  show Except.ok (Graph.mk
    (buildNodes w [] 0 (realize 0 ((c :: t).zip
      (List.replicate (c :: t).length PosA.fresh))))
    (addPathEdges [] w ((realize 0 ((c :: t).zip
      (List.replicate (c :: t).length PosA.fresh))).map (itemId Graph.empty)))
    ([] ++ [⟨c :: t, w, (realize 0 ((c :: t).zip
      (List.replicate (c :: t).length PosA.fresh))).map (itemId Graph.empty)⟩])
    (0 + (realize 0 ((c :: t).zip
      (List.replicate (c :: t).length PosA.fresh))).countP isNew)) = _
  rw [realize_fresh_nodes w (c :: t) 0, realize_fresh_ids Graph.empty (c :: t) 0,
    realize_fresh_count (c :: t) 0,
    addPathEdges_chain w (c :: t) 0 [] (by intro e h; cases h)]
  unfold chainGraph
  rw [← List.range_eq_range', Nat.zero_add]
  rfl

theorem msa_chain_render (w m : Nat) :
    ∀ (s : List Char) (i0 : Nat), i0 + s.length ≤ m →
      (chainNodes w i0 s).map
        (fun n => if (List.range m).contains n.id then n.sym else '-') = s := by
  intro s
  induction s with
  | nil => intro i0 _; rfl
  | cons c t ih =>
      intro i0 hle
      show (if (List.range m).contains i0 then c else '-') ::
        (chainNodes w (i0 + 1) t).map _ = _
      rw [ih (i0 + 1) (by simp at hle ⊢; omega)]
      have hc : (List.range m).contains i0 = true := by
        have : i0 ∈ List.range m := List.mem_range.mpr (by simp at hle; omega)
        exact List.elem_eq_true_of_mem this
      rw [hc]
      rfl

theorem msa_chainGraph (s : List Char) (w : Nat) :
    Graph.msa (chainGraph s w) = [s] := by
  unfold Graph.msa chainGraph
  show [(chainNodes w 0 s).map _] = [s]
  congr 1
  exact msa_chain_render w s.length s 0 (by omega)

/-- C1: inserting a non-empty sequence s over the supported alphabet alone
into a freshly created empty graph succeeds, and GetMSA then returns a
collection of exactly one string, equal to s with no gap symbols:
single-sequence alignment is a no-op. -/
theorem c1_single_sequence_msa (s : List Char) (sc : Scoring)
    (hs : validSeq s = true) (hsc : validScoring sc = true) :
    statusOf (addSequence Graph.empty s sc) = 0 ∧
    Graph.msa (commit Graph.empty (addSequence Graph.empty s sc)) = [s] ∧
    (Graph.msa (commit Graph.empty (addSequence Graph.empty s sc))).length = 1 ∧
    ∀ t ∈ Graph.msa (commit Graph.empty (addSequence Graph.empty s sc)),
      ∀ c ∈ t, c ≠ '-' := by
  have hok : addSequence Graph.empty s sc = .ok (chainGraph s 1) :=
    addSequenceW_empty s sc 1 hs hsc
  rw [hok]
  have hmsa : Graph.msa (commit Graph.empty (Except.ok (chainGraph s 1))) = [s] := by
    show Graph.msa (chainGraph s 1) = [s]
    exact msa_chainGraph s 1
  refine ⟨rfl, hmsa, by simp [hmsa], ?_⟩
  intro t ht c hc
  rw [hmsa] at ht
  rcases List.mem_singleton.mp ht with rfl
  have := ((validSeq_true_iff _).mp hs).2 c hc
  intro hdash
  subst hdash
  simp [alphabet] at this

/-- C1 witness: the single-sequence no-op at the concrete sequence ACGT. -/
theorem c1_single_sequence_msa_witness :
    statusOf (addSequence Graph.empty ['A', 'C', 'G', 'T'] ⟨1, 2, 1⟩) = 0 ∧
    Graph.msa (commit Graph.empty
      (addSequence Graph.empty ['A', 'C', 'G', 'T'] ⟨1, 2, 1⟩)) =
      [['A', 'C', 'G', 'T']] ∧
    (Graph.msa (commit Graph.empty
      (addSequence Graph.empty ['A', 'C', 'G', 'T'] ⟨1, 2, 1⟩))).length = 1 ∧
    ∀ t ∈ Graph.msa (commit Graph.empty
        (addSequence Graph.empty ['A', 'C', 'G', 'T'] ⟨1, 2, 1⟩)),
      ∀ c ∈ t, c ≠ '-' :=
  c1_single_sequence_msa ['A', 'C', 'G', 'T'] ⟨1, 2, 1⟩ (by rfl) (by rfl)

theorem mem_preds_rowRank (g : Graph) (r : Nat) :
    ∀ u ∈ preds g r, rowRank u ≤ r := by
  intro u hu
  unfold preds at hu
  by_cases he : (predRanks g r).isEmpty
  · rw [if_pos he] at hu
    rcases List.mem_singleton.mp hu with rfl
    exact Nat.zero_le r
  · rw [if_neg he] at hu
    obtain ⟨u', hu', rfl⟩ := List.mem_map.mp hu
    have : u' ∈ List.range r := List.mem_of_mem_filter hu'
    exact List.mem_range.mp this

theorem omax_eq_some_or {a b : Option Int} {v : Int} (h : omax a b = some v) :
    a = some v ∨ b = some v := by
  cases a with
  | none => exact Or.inr h
  | some x =>
      cases b with
      | none => exact Or.inl h
      | some y =>
          have hv : max x y = v := Option.some.inj h
          rcases max_choice x y with hm | hm
          · exact Or.inl (by rw [← hv, hm])
          · exact Or.inr (by rw [← hv, hm])

theorem omaxList_eq_some_mem {l : List (Option Int)} {v : Int}
    (h : omaxList l = some v) : some v ∈ l := by
  induction l with
  | nil => exact absurd h (by simp [omaxList])
  | cons a t ih =>
      have h' : omax a (omaxList t) = some v := h
      rcases omax_eq_some_or h' with ha | ht
      · exact ha ▸ List.mem_cons_self a t
      · exact List.mem_cons_of_mem a (ih ht)

theorem omax_some_of_le {a : Int} {b : Option Int}
    (hb : ∀ u, b = some u → u ≤ a) : omax (some a) b = some a := by
  cases b with
  | none => rfl
  | some u =>
      show some (max a u) = some a
      rw [max_eq_left (hb u rfl)]

theorem subScore_le_one (sc : Scoring) (a b : Char) :
    subScore sc a b ≤ 1 := by
  unfold subScore matchScore
  by_cases h : a = b
  · rw [if_pos h]
  · rw [if_neg h]
    have : (0 : Int) ≤ (sc.mismatch : Int) := Int.natCast_nonneg _
    omega

/-- Every DP cell value is at most the column index: each consumed residue
contributes at most the match score one, and gaps only cost. -/
theorem scoreF_le_col (g : Graph) (s : List Char) (sc : Scoring) :
    ∀ (f : Nat) (mat : Mat) (p : Option Nat) (j : Nat) (v : Int),
      scoreF g s sc f mat p j = some v → v ≤ (j : Int) := by
  intro f
  induction f with
  | zero =>
      intro mat p j v h
      exact absurd h (by simp [scoreF])
  | succ f' ih =>
      intro mat p j v h
      have hopen : (0 : Int) ≤ (sc.gapOpen : Int) := Int.natCast_nonneg _
      have hext : (0 : Int) ≤ (sc.gapExtend : Int) := Int.natCast_nonneg _
      cases mat with
      | m =>
          cases p with
          | none =>
              simp only [scoreF] at h
              by_cases hj : j = 0
              · subst hj
                rw [if_pos rfl] at h
                cases Option.some.inj h
                simp
              · rw [if_neg hj] at h
                exact absurd h (by simp)
          | some r =>
              cases j with
              | zero => exact absurd h (by simp [scoreF])
              | succ j' =>
                  simp only [scoreF] at h
                  have hmem := omaxList_eq_some_mem h
                  obtain ⟨u, _, hu⟩ := List.mem_map.mp hmem
                  obtain ⟨v', hbest, rfl⟩ := oadd_eq_some.mp hu
                  have hsub := subScore_le_one sc (s.getD j' 'A') (symOfRank g r)
                  rcases omax_eq_some_or hbest with hc | hc
                  · have := ih .m u j' v' hc
                    push_cast
                    omega
                  · rcases omax_eq_some_or hc with hc2 | hc2
                    · have := ih .x u j' v' hc2
                      push_cast
                      omega
                    · have := ih .y u j' v' hc2
                      push_cast
                      omega
      | y =>
          cases p with
          | none => exact absurd h (by simp [scoreF])
          | some r =>
              simp only [scoreF] at h
              have hmem := omaxList_eq_some_mem h
              obtain ⟨u, _, hu⟩ := List.mem_map.mp hmem
              rcases omax_eq_some_or hu with hc | hc
              · obtain ⟨v', hv', rfl⟩ := osub_eq_some.mp hc
                have := ih .m u j v' hv'
                omega
              · obtain ⟨v', hv', rfl⟩ := osub_eq_some.mp hc
                have := ih .y u j v' hv'
                omega
      | x =>
          cases p with
          | none =>
              cases j with
              | zero => exact absurd h (by simp [scoreF])
              | succ j' =>
                  simp only [scoreF] at h
                  rcases omax_eq_some_or h with hc | hc
                  · obtain ⟨v', hv', rfl⟩ := osub_eq_some.mp hc
                    have := ih .m none j' v' hv'
                    push_cast
                    omega
                  · obtain ⟨v', hv', rfl⟩ := osub_eq_some.mp hc
                    have := ih .x none j' v' hv'
                    push_cast
                    omega
          | some r =>
              cases j with
              | zero => exact absurd h (by simp [scoreF])
              | succ j' =>
                  simp only [scoreF] at h
                  rcases omax_eq_some_or h with hc | hc
                  · obtain ⟨v', hv', rfl⟩ := osub_eq_some.mp hc
                    have := ih .m (some r) j' v' hv'
                    push_cast
                    omega
                  · obtain ⟨v', hv', rfl⟩ := osub_eq_some.mp hc
                    have := ih .x (some r) j' v' hv'
                    push_cast
                    omega

theorem score_le_col (g : Graph) (s : List Char) (sc : Scoring)
    (mat : Mat) (p : Option Nat) (j : Nat) (v : Int)
    (h : score g s sc mat p j = some v) : v ≤ (j : Int) :=
  scoreF_le_col g s sc (bigFuel g s) mat p j v h

/-- Fuel does not matter above the cell measure: any two sufficient fuels
compute the same cell value. -/
theorem scoreF_congr (g : Graph) (s : List Char) (sc : Scoring) :
    ∀ (mu : Nat), ∀ (f1 f2 : Nat) (mat : Mat) (p : Option Nat) (j : Nat),
      cellMeasure g.nodes.length p j = mu → mu < f1 → mu < f2 →
      scoreF g s sc f1 mat p j = scoreF g s sc f2 mat p j := by
  intro mu
  induction mu using Nat.strong_induction_on with
  | _ mu ih =>
      intro f1 f2 mat p j hmu h1 h2
      obtain ⟨f1', rfl⟩ : ∃ f1', f1 = f1' + 1 := ⟨f1 - 1, by omega⟩
      obtain ⟨f2', rfl⟩ : ∃ f2', f2 = f2' + 1 := ⟨f2 - 1, by omega⟩
      have hsub : ∀ (mat' : Mat) (p' : Option Nat) (j' : Nat),
          cellMeasure g.nodes.length p' j' < mu →
          scoreF g s sc f1' mat' p' j' = scoreF g s sc f2' mat' p' j' := by
        intro mat' p' j' hlt
        exact ih _ hlt f1' f2' mat' p' j' rfl (by omega) (by omega)
      cases mat with
      | m =>
          cases p with
          | none => rfl
          | some r =>
              cases j with
              | zero => rfl
              | succ j' =>
                  simp only [scoreF]
                  apply congrArg
                  apply List.map_congr_left
                  intro u hu
                  have hur : rowRank u ≤ r := mem_preds_rowRank g r u hu
                  have hde : cellMeasure g.nodes.length u j' < mu := by
                    rw [← hmu]
                    unfold cellMeasure
                    have hexp : (j' + 1) * (g.nodes.length + 2) =
                        j' * (g.nodes.length + 2) + (g.nodes.length + 2) := by
                      ring
                    have hrr : rowRank (some r) = r + 1 := rfl
                    omega
                  rw [hsub .m u j' hde, hsub .x u j' hde, hsub .y u j' hde]
      | y =>
          cases p with
          | none => rfl
          | some r =>
              simp only [scoreF]
              apply congrArg
              apply List.map_congr_left
              intro u hu
              have hur : rowRank u ≤ r := mem_preds_rowRank g r u hu
              have hde : cellMeasure g.nodes.length u j < mu := by
                rw [← hmu]
                unfold cellMeasure
                have hrr : rowRank (some r) = r + 1 := rfl
                omega
              rw [hsub .m u j hde, hsub .y u j hde]
      | x =>
          cases p with
          | none =>
              cases j with
              | zero => rfl
              | succ j' =>
                  simp only [scoreF]
                  have hde : cellMeasure g.nodes.length none j' < mu := by
                    rw [← hmu]
                    unfold cellMeasure
                    have hexp : (j' + 1) * (g.nodes.length + 2) =
                        j' * (g.nodes.length + 2) + (g.nodes.length + 2) := by
                      ring
                    have hrr : rowRank (none : Option Nat) = 0 := rfl
                    omega
                  rw [hsub .m none j' hde, hsub .x none j' hde]
          | some r =>
              cases j with
              | zero => rfl
              | succ j' =>
                  simp only [scoreF]
                  have hde : cellMeasure g.nodes.length (some r) j' < mu := by
                    rw [← hmu]
                    unfold cellMeasure
                    have hexp : (j' + 1) * (g.nodes.length + 2) =
                        j' * (g.nodes.length + 2) + (g.nodes.length + 2) := by
                      ring
                    omega
                  rw [hsub .m (some r) j' hde, hsub .x (some r) j' hde]

/-- The recurrence of the M matrix at a real row, phrased with ample fuel. -/
theorem score_m_some (g : Graph) (s : List Char) (sc : Scoring) (r j : Nat)
    (hr : r < g.nodes.length) (hj : j + 1 ≤ s.length) :
    score g s sc .m (some r) (j + 1) =
      omaxList ((preds g r).map (fun u =>
        oadd (omax (score g s sc .m u j)
          (omax (score g s sc .x u j) (score g s sc .y u j)))
          (subScore sc (s.getD j 'A') (symOfRank g r)))) := by
  obtain ⟨F, hF⟩ : ∃ F, bigFuel g s = F + 1 :=
    ⟨bigFuel g s - 1, by have := bigFuel_pos g s; omega⟩
  show scoreF g s sc (bigFuel g s) .m (some r) (j + 1) = _
  rw [hF]
  simp only [scoreF]
  apply congrArg
  apply List.map_congr_left
  intro u hu
  have hur : rowRank u ≤ r := mem_preds_rowRank g r u hu
  have hkey : cellMeasure g.nodes.length u j + 1 < bigFuel g s := by
    unfold cellMeasure bigFuel
    have hA : (j + 1) * (g.nodes.length + 2) =
        j * (g.nodes.length + 2) + (g.nodes.length + 2) := by ring
    have hB : (j + 1) * (g.nodes.length + 2) ≤
        (s.length + 1) * (g.nodes.length + 2) :=
      Nat.mul_le_mul_right _ (by omega)
    omega
  have h1 := scoreF_congr g s sc (cellMeasure g.nodes.length u j)
    F (bigFuel g s) .m u j rfl (by omega) (by omega)
  have h2 := scoreF_congr g s sc (cellMeasure g.nodes.length u j)
    F (bigFuel g s) .x u j rfl (by omega) (by omega)
  have h3 := scoreF_congr g s sc (cellMeasure g.nodes.length u j)
    F (bigFuel g s) .y u j rfl (by omega) (by omega)
  rw [h1, h2, h3]
  rfl

/-- The recurrence of the Y matrix at a real row, phrased with ample fuel. -/
theorem score_y_some (g : Graph) (s : List Char) (sc : Scoring) (r j : Nat)
    (hr : r < g.nodes.length) (hj : j ≤ s.length) :
    score g s sc .y (some r) j =
      omaxList ((preds g r).map (fun u =>
        omax (osub (score g s sc .m u j) sc.gapOpen)
             (osub (score g s sc .y u j) sc.gapExtend))) := by
  obtain ⟨F, hF⟩ : ∃ F, bigFuel g s = F + 1 :=
    ⟨bigFuel g s - 1, by have := bigFuel_pos g s; omega⟩
  show scoreF g s sc (bigFuel g s) .y (some r) j = _
  rw [hF]
  simp only [scoreF]
  apply congrArg
  apply List.map_congr_left
  intro u hu
  have hur : rowRank u ≤ r := mem_preds_rowRank g r u hu
  have hkey : cellMeasure g.nodes.length u j + 1 < bigFuel g s := by
    unfold cellMeasure bigFuel
    have hB : j * (g.nodes.length + 2) ≤
        s.length * (g.nodes.length + 2) :=
      Nat.mul_le_mul_right _ hj
    have hA : (s.length + 1) * (g.nodes.length + 2) =
        s.length * (g.nodes.length + 2) + (g.nodes.length + 2) := by ring
    omega
  have h1 := scoreF_congr g s sc (cellMeasure g.nodes.length u j)
    F (bigFuel g s) .m u j rfl (by omega) (by omega)
  have h2 := scoreF_congr g s sc (cellMeasure g.nodes.length u j)
    F (bigFuel g s) .y u j rfl (by omega) (by omega)
  rw [h1, h2]
  rfl

/-- The recurrence of the X matrix at a real row, phrased with ample fuel. -/
theorem score_x_some (g : Graph) (s : List Char) (sc : Scoring) (r j : Nat)
    (hr : r < g.nodes.length) (hj : j + 1 ≤ s.length) :
    score g s sc .x (some r) (j + 1) =
      omax (osub (score g s sc .m (some r) j) sc.gapOpen)
           (osub (score g s sc .x (some r) j) sc.gapExtend) := by
  obtain ⟨F, hF⟩ : ∃ F, bigFuel g s = F + 1 :=
    ⟨bigFuel g s - 1, by have := bigFuel_pos g s; omega⟩
  show scoreF g s sc (bigFuel g s) .x (some r) (j + 1) = _
  rw [hF]
  simp only [scoreF]
  have hkey : cellMeasure g.nodes.length (some r) j + 1 < bigFuel g s := by
    unfold cellMeasure bigFuel
    have hrr : rowRank (some r) = r + 1 := rfl
    have hA : (j + 1) * (g.nodes.length + 2) =
        j * (g.nodes.length + 2) + (g.nodes.length + 2) := by ring
    have hB : (j + 1) * (g.nodes.length + 2) ≤
        (s.length + 1) * (g.nodes.length + 2) :=
      Nat.mul_le_mul_right _ (by omega)
    omega
  have h1 := scoreF_congr g s sc (cellMeasure g.nodes.length (some r) j)
    F (bigFuel g s) .m (some r) j rfl (by omega) (by omega)
  have h2 := scoreF_congr g s sc (cellMeasure g.nodes.length (some r) j)
    F (bigFuel g s) .x (some r) j rfl (by omega) (by omega)
  rw [h1, h2]
  rfl

theorem chainNodes_length (w i0 : Nat) :
    ∀ s : List Char, (chainNodes w i0 s).length = s.length := by
  intro s
  induction s generalizing i0 with
  | nil => rfl
  | cons c t ih => simp [chainNodes, ih]

theorem chainNodes_getD (w : Nat) :
    ∀ (s : List Char) (i0 k : Nat), k < s.length →
      (chainNodes w i0 s).getD k default = ⟨i0 + k, s.getD k 'A', w⟩ := by
  intro s
  induction s with
  | nil => intro i0 k hk; exact absurd hk (by simp)
  | cons c t ih =>
      intro i0 k hk
      cases k with
      | zero => simp [chainNodes]
      | succ k' =>
          show (chainNodes w (i0 + 1) t).getD k' default = _
          rw [ih (i0 + 1) k' (by simp at hk; omega)]
          have : i0 + 1 + k' = i0 + (k' + 1) := by omega
          rw [this]
          rfl

theorem chainGraph_nodes_length (s : List Char) (w : Nat) :
    (chainGraph s w).nodes.length = s.length :=
  chainNodes_length w 0 s

theorem idOfRank_chain (s : List Char) (w : Nat) (r : Nat) (hr : r < s.length) :
    idOfRank (chainGraph s w) r = r := by
  unfold idOfRank
  show ((chainNodes w 0 s).getD r default).id = r
  rw [chainNodes_getD w s 0 r hr]
  simp

theorem symOfRank_chain (s : List Char) (w : Nat) (r : Nat) (hr : r < s.length) :
    symOfRank (chainGraph s w) r = s.getD r 'A' := by
  unfold symOfRank
  show ((chainNodes w 0 s).getD r default).sym = _
  rw [chainNodes_getD w s 0 r hr]

theorem chainEdges_mem (w : Nat) :
    ∀ (s : List Char) (i0 : Nat) (e : Edge), e ∈ chainEdges w i0 s →
      i0 ≤ e.src ∧ e.dst = e.src + 1 ∧ e.src + 1 < i0 + s.length ∧
        e.weight = w := by
  intro s
  induction s with
  | nil => intro i0 e he; cases he
  | cons c1 t ih =>
      intro i0 e he
      cases t with
      | nil => cases he
      | cons c2 t' =>
          rcases List.mem_cons.mp he with rfl | hm
          · refine ⟨Nat.le_refl _, rfl, ?_, rfl⟩
            simp only [List.length_cons]
            omega
          · obtain ⟨h1, h2, h3, h4⟩ := ih (i0 + 1) e hm
            refine ⟨by omega, h2, ?_, h4⟩
            simp at h3 ⊢
            omega

theorem chainEdges_has (w : Nat) :
    ∀ (s : List Char) (i0 k : Nat), k + 1 < s.length →
      (⟨i0 + k, i0 + k + 1, w⟩ : Edge) ∈ chainEdges w i0 s := by
  intro s
  induction s with
  | nil => intro i0 k hk; exact absurd hk (by simp)
  | cons c1 t ih =>
      intro i0 k hk
      cases t with
      | nil => simp at hk
      | cons c2 t' =>
          cases k with
          | zero => exact List.mem_cons_self _ _
          | succ k' =>
              apply List.mem_cons_of_mem
              have := ih (i0 + 1) k' (by simp at hk ⊢; omega)
              have harr : i0 + 1 + k' = i0 + (k' + 1) := by omega
              rw [harr] at this
              exact this

theorem hasEdge_chain_true (s : List Char) (w : Nat) (a b : Nat)
    (hab : b = a + 1) (hb : b < s.length) :
    hasEdge (chainGraph s w) a b = true := by
  subst hab
  apply List.any_eq_true.mpr
  refine ⟨⟨a, a + 1, w⟩, ?_, by simp⟩
  have := chainEdges_has w s 0 a (by omega)
  simpa using this

theorem hasEdge_chain_false (s : List Char) (w : Nat) (a b : Nat)
    (h : ¬ (b = a + 1 ∧ b < s.length)) :
    hasEdge (chainGraph s w) a b = false := by
  apply Bool.eq_false_iff.mpr
  intro hany
  obtain ⟨e, hemem, hsd⟩ := List.any_eq_true.mp hany
  simp only [Bool.and_eq_true, decide_eq_true_eq] at hsd
  obtain ⟨h1, h2, h3, _⟩ := chainEdges_mem w s 0 e hemem
  apply h
  constructor
  · omega
  · simp at h3
    omega

theorem predRanks_chain_zero (s : List Char) (w : Nat) :
    predRanks (chainGraph s w) 0 = [] := rfl

theorem predRanks_chain (s : List Char) (w : Nat) (r : Nat)
    (hr0 : 0 < r) (hr : r < s.length) :
    predRanks (chainGraph s w) r = [r - 1] := by
  unfold predRanks
  obtain ⟨r', rfl⟩ : ∃ r', r = r' + 1 := ⟨r - 1, by omega⟩
  rw [List.range_succ, List.filter_append]
  have h1 : (List.range r').filter
      (fun u => hasEdge (chainGraph s w)
        (idOfRank (chainGraph s w) u) (idOfRank (chainGraph s w) (r' + 1))) =
      [] := by
    rw [List.filter_eq_nil_iff]
    intro u hu
    have hu' : u < r' := List.mem_range.mp hu
    rw [idOfRank_chain s w u (by omega), idOfRank_chain s w (r' + 1) hr]
    rw [hasEdge_chain_false s w u (r' + 1) (by omega)]
    simp
  have h2 : ([r']).filter
      (fun u => hasEdge (chainGraph s w)
        (idOfRank (chainGraph s w) u) (idOfRank (chainGraph s w) (r' + 1))) =
      [r'] := by
    have : hasEdge (chainGraph s w)
        (idOfRank (chainGraph s w) r') (idOfRank (chainGraph s w) (r' + 1)) =
        true := by
      rw [idOfRank_chain s w r' (by omega), idOfRank_chain s w (r' + 1) hr]
      exact hasEdge_chain_true s w r' (r' + 1) rfl hr
    simp [List.filter_cons, this]
  rw [h1, h2]
  simp

theorem preds_chain_zero (s : List Char) (w : Nat) :
    preds (chainGraph s w) 0 = [none] := rfl

theorem preds_chain (s : List Char) (w : Nat) (r : Nat)
    (hr0 : 0 < r) (hr : r < s.length) :
    preds (chainGraph s w) r = [some (r - 1)] := by
  unfold preds
  rw [predRanks_chain s w r hr0 hr]
  rfl

theorem sinkRanks_chain (s : List Char) (w : Nat) (m' : Nat)
    (hm : s.length = m' + 1) :
    sinkRanks (chainGraph s w) = [m'] := by
  unfold sinkRanks
  rw [chainGraph_nodes_length, hm, List.range_succ, List.filter_append]
  have h1 : (List.range m').filter
      (fun r => !((chainGraph s w).edges.any
        (fun e => e.src = idOfRank (chainGraph s w) r))) = [] := by
    rw [List.filter_eq_nil_iff]
    intro u hu
    have hu' : u < m' := List.mem_range.mp hu
    have hedge : (chainGraph s w).edges.any
        (fun e => e.src = idOfRank (chainGraph s w) u) = true := by
      apply List.any_eq_true.mpr
      refine ⟨⟨u, u + 1, w⟩, ?_, ?_⟩
      · have := chainEdges_has w s 0 u (by omega)
        simpa using this
      · rw [idOfRank_chain s w u (by omega)]
        simp
    simp [hedge]
  have h2 : ([m']).filter
      (fun r => !((chainGraph s w).edges.any
        (fun e => e.src = idOfRank (chainGraph s w) r))) = [m'] := by
    have hnoedge : (chainGraph s w).edges.any
        (fun e => e.src = idOfRank (chainGraph s w) m') = false := by
      apply Bool.eq_false_iff.mpr
      intro hany
      obtain ⟨e, hemem, hsd⟩ := List.any_eq_true.mp hany
      simp only [decide_eq_true_eq] at hsd
      obtain ⟨h1', h2', h3', _⟩ := chainEdges_mem w s 0 e hemem
      rw [idOfRank_chain s w m' (by omega)] at hsd
      simp at h3'
      omega
    simp [List.filter_cons, hnoedge]
  rw [h1, h2]
  simp

theorem sinkCands_chain (s : List Char) (w : Nat) (m' : Nat)
    (hm : s.length = m' + 1) :
    sinkCands (chainGraph s w) = [some m'] := by
  unfold sinkCands
  rw [sinkRanks_chain s w m' hm]
  rfl

theorem subScore_self (sc : Scoring) (a : Char) : subScore sc a a = 1 := by
  unfold subScore matchScore
  rw [if_pos rfl]

/-- On the chain graph of s, the M matrix holds the perfect prefix score
along the diagonal: position r of the sequence matched at rank r. -/
theorem score_m_chain_diag (s : List Char) (sc : Scoring) (w : Nat) :
    ∀ r, r < s.length →
      score (chainGraph s w) s sc .m (some r) (r + 1) = some ((r : Int) + 1) := by
  intro r
  induction r with
  | zero =>
      intro hr
      rw [score_m_some (chainGraph s w) s sc 0 0
        (by rw [chainGraph_nodes_length]; omega) (by omega)]
      rw [preds_chain_zero]
      show omax (oadd (omax (score (chainGraph s w) s sc .m none 0)
        (omax (score (chainGraph s w) s sc .x none 0)
          (score (chainGraph s w) s sc .y none 0)))
        (subScore sc (s.getD 0 'A') (symOfRank (chainGraph s w) 0))) none = _
      rw [omax_none_right]
      rw [score_m_none_zero, symOfRank_chain s w 0 hr,
        show score (chainGraph s w) s sc .x none 0 = none from
          scoreF_x_none_zero _ s sc _,
        show score (chainGraph s w) s sc .y none 0 = none from
          scoreF_y_none _ s sc _ _]
      rw [subScore_self]
      show some (0 + 1) = _
      norm_num
  | succ r' ih =>
      intro hr
      rw [score_m_some (chainGraph s w) s sc (r' + 1) (r' + 1)
        (by rw [chainGraph_nodes_length]; omega) (by omega)]
      rw [preds_chain s w (r' + 1) (by omega) hr]
      show omax (oadd (omax (score (chainGraph s w) s sc .m (some (r' + 1 - 1)) (r' + 1))
        (omax (score (chainGraph s w) s sc .x (some (r' + 1 - 1)) (r' + 1))
          (score (chainGraph s w) s sc .y (some (r' + 1 - 1)) (r' + 1))))
        (subScore sc (s.getD (r' + 1) 'A')
          (symOfRank (chainGraph s w) (r' + 1)))) none = _
      rw [omax_none_right]
      have hsimp : r' + 1 - 1 = r' := by omega
      rw [hsimp]
      rw [ih (by omega)]
      have hbound : ∀ u, omax (score (chainGraph s w) s sc .x (some r') (r' + 1))
          (score (chainGraph s w) s sc .y (some r') (r' + 1)) = some u →
          u ≤ (r' : Int) + 1 := by
        intro u hu
        rcases omax_eq_some_or hu with hc | hc
        · have := score_le_col (chainGraph s w) s sc .x (some r') (r' + 1) u hc
          push_cast at this ⊢
          omega
        · have := score_le_col (chainGraph s w) s sc .y (some r') (r' + 1) u hc
          push_cast at this ⊢
          omega
      rw [omax_some_of_le hbound]
      rw [symOfRank_chain s w (r' + 1) hr, subScore_self]
      show some ((r' : Int) + 1 + 1) = _
      have hc2 : ((r' : Int) + 1 + 1) = (((r' + 1 : Nat)) : Int) + 1 := by
        push_cast
        ring
      rw [hc2]

/-- The optimal global score on the chain graph of s aligned with s itself
is the perfect all-match score: the length of s. -/
theorem finalScore_chain (s : List Char) (sc : Scoring) (w : Nat) (m' : Nat)
    (hm : s.length = m' + 1) :
    finalScore (chainGraph s w) s sc = some ((m' : Int) + 1) := by
  unfold finalScore
  rw [sinkCands_chain s w m' hm]
  show omax (bestAt (chainGraph s w) s sc (some m') s.length) none = _
  rw [omax_none_right]
  unfold bestAt
  rw [hm]
  rw [score_m_chain_diag s sc w m' (by omega)]
  have hbound : ∀ u, omax (score (chainGraph s w) s sc .x (some m') (m' + 1))
      (score (chainGraph s w) s sc .y (some m') (m' + 1)) = some u →
      u ≤ (m' : Int) + 1 := by
    intro u hu
    rcases omax_eq_some_or hu with hc | hc
    · have := score_le_col (chainGraph s w) s sc .x (some m') (m' + 1) u hc
      push_cast at this ⊢
      omega
    · have := score_le_col (chainGraph s w) s sc .y (some m') (m' + 1) u hc
      push_cast at this ⊢
      omega
  rw [omax_some_of_le hbound]

/-- On the chain graph of s, the traceback from the diagonal M cell walks
the all-match diagonal back to the start. -/
theorem tbF_chain_diag (s : List Char) (sc : Scoring) (w : Nat) :
    ∀ (r f : Nat), r + 2 ≤ f → r < s.length →
      tbF (chainGraph s w) s sc f .m (some r) (r + 1) =
        some ((List.range (r + 1)).map (fun i => Step.mat i i)) := by
  intro r
  induction r with
  | zero =>
      intro f hf hs0
      obtain ⟨f', rfl⟩ : ∃ f', f = f' + 1 := ⟨f - 1, by omega⟩
      have hv := score_m_chain_diag s sc w 0 hs0
      have hcands : cands (chainGraph s w) .m (some 0) =
          [(Mat.m, none), (Mat.y, none), (Mat.x, none)] := by
        simp only [cands]
        rw [preds_chain_zero]
        rfl
      have hchk : candCheck (chainGraph s w) s sc .m (some 0) (0 + 1)
          (((0 : Nat) : Int) + 1) (Mat.m, none) = true := by
        simp only [candCheck, decide_eq_true_eq, Option.getD_some]
        rw [show scoreF (chainGraph s w) s sc (bigFuel (chainGraph s w) s)
            .m none 0 = some 0 from
          scoreF_m_none_zero (chainGraph s w) s sc (bigFuel_pos _ s)]
        rw [symOfRank_chain s w 0 hs0, subScore_self]
        show some (0 + 1) = _
        norm_num
      have hfind : (cands (chainGraph s w) .m (some 0)).find?
          (candCheck (chainGraph s w) s sc .m (some 0) (0 + 1)
            (((0 : Nat) : Int) + 1)) = some (Mat.m, none) := by
        rw [hcands]
        rw [List.find?_cons_of_pos _ hchk]
      rw [tbF_m_step (chainGraph s w) s sc f' 0 0 hv hfind]
      rw [tbF_m_none_zero (chainGraph s w) s sc (by omega)]
      rfl
  | succ r' ih =>
      intro f hf hr
      obtain ⟨f', rfl⟩ : ∃ f', f = f' + 1 := ⟨f - 1, by omega⟩
      have hv := score_m_chain_diag s sc w (r' + 1) hr
      have hcands : cands (chainGraph s w) .m (some (r' + 1)) =
          [(Mat.m, some r'), (Mat.y, some r'), (Mat.x, some r')] := by
        simp only [cands]
        rw [preds_chain s w (r' + 1) (by omega) hr]
        rfl
      have hchk : candCheck (chainGraph s w) s sc .m (some (r' + 1)) (r' + 1 + 1)
          (((r' + 1 : Nat) : Int) + 1) (Mat.m, some r') = true := by
        simp only [candCheck, decide_eq_true_eq, Option.getD_some]
        rw [show scoreF (chainGraph s w) s sc (bigFuel (chainGraph s w) s)
            .m (some r') (r' + 1) = some ((r' : Int) + 1) from
          score_m_chain_diag s sc w r' (by omega)]
        rw [symOfRank_chain s w (r' + 1) hr, subScore_self]
        show some ((r' : Int) + 1 + 1) = _
        have hc2 : ((r' : Int) + 1 + 1) = (((r' + 1 : Nat)) : Int) + 1 := by
          push_cast
          ring
        rw [hc2]
      have hfind : (cands (chainGraph s w) .m (some (r' + 1))).find?
          (candCheck (chainGraph s w) s sc .m (some (r' + 1)) (r' + 1 + 1)
            (((r' + 1 : Nat) : Int) + 1)) = some (Mat.m, some r') := by
        rw [hcands]
        rw [List.find?_cons_of_pos _ hchk]
      rw [tbF_m_step (chainGraph s w) s sc f' (r' + 1) (r' + 1) hv hfind]
      rw [ih f' (by omega) (by omega)]
      show some ((List.range (r' + 1)).map (fun i => Step.mat i i) ++
        [Step.mat (r' + 1) (r' + 1)]) = _
      have hrr := List.range_succ (r' + 1)
      rw [show List.range (r' + 1 + 1) = List.range (r' + 1) ++ [r' + 1] from hrr]
      simp

/-- Re-aligning s against its own chain graph yields the all-match diagonal
traceback. -/
theorem traceback_chain (s : List Char) (sc : Scoring) (w : Nat) (m' : Nat)
    (hm : s.length = m' + 1) :
    traceback (chainGraph s w) s sc =
      some ((List.range (m' + 1)).map (fun i => Step.mat i i)) := by
  have hv := finalScore_chain s sc w m' hm
  have hstart : (([Mat.m, Mat.y, Mat.x]).flatMap
      (fun mt => (sortCands (chainGraph s w) (sinkCands (chainGraph s w))).map
        (fun u => (mt, u)))) =
      [(Mat.m, some m'), (Mat.y, some m'), (Mat.x, some m')] := by
    rw [sinkCands_chain s w m' hm]
    rfl
  have hchk : decide (score (chainGraph s w) s sc Mat.m (some m') s.length =
      some ((m' : Int) + 1)) = true := by
    rw [hm, score_m_chain_diag s sc w m' (by omega)]
    simp
  have hfind : (([Mat.m, Mat.y, Mat.x]).flatMap
      (fun mt => (sortCands (chainGraph s w) (sinkCands (chainGraph s w))).map
        (fun u => (mt, u)))).find?
      (fun c => decide (score (chainGraph s w) s sc c.1 c.2 s.length =
        some ((m' : Int) + 1))) = some (Mat.m, some m') := by
    rw [hstart]
    simp only [List.find?, hchk]
  rw [traceback_step (chainGraph s w) s sc hv hfind]
  rw [hm]
  apply tbF_chain_diag s sc w m' (bigFuel (chainGraph s w) s) ?_ (by omega)
  unfold bigFuel
  rw [chainGraph_nodes_length, hm]
  have h1 : m' + 2 ≤ (m' + 1 + 1) * (m' + 1 + 2) :=
    Nat.le_mul_of_pos_right _ (by omega)
  omega

theorem positionsOf_diag (s : List Char) (w : Nat) :
    ∀ (l : List Nat), (∀ i ∈ l, i < s.length) →
      positionsOf (chainGraph s w) s (l.map (fun i => Step.mat i i)) =
        l.map PosA.reuse := by
  intro l
  induction l with
  | nil => intro _; rfl
  | cons i t ih =>
      intro hmem
      show (if symOfRank (chainGraph s w) i = s.getD i 'A'
        then PosA.reuse i else PosA.fresh) ::
        positionsOf (chainGraph s w) s (t.map (fun i => Step.mat i i)) = _
      rw [symOfRank_chain s w i (hmem i (List.mem_cons_self i t)), if_pos rfl,
        ih (fun j hj => hmem j (List.mem_cons_of_mem i hj))]
      rfl

theorem realize_reuse :
    ∀ (s' : List Char) (l : List Nat) (nid : Nat), s'.length = l.length →
      realize nid (s'.zip (l.map PosA.reuse)) = l.map Item.old := by
  intro s'
  induction s' with
  | nil =>
      intro l nid hl
      cases l with
      | nil => rfl
      | cons a t => exact absurd hl (by simp)
  | cons c t ih =>
      intro l nid hl
      cases l with
      | nil => exact absurd hl (by simp)
      | cons i tl =>
          show Item.old i :: realize nid (t.zip (tl.map PosA.reuse)) = _
          rw [ih tl nid (by simp at hl; omega)]
          rfl

theorem map_itemId_old (g : Graph) :
    ∀ (l : List Nat), (∀ i ∈ l, idOfRank g i = i) →
      (l.map Item.old).map (itemId g) = l := by
  intro l
  induction l with
  | nil => intro _; rfl
  | cons i t ih =>
      intro h
      show idOfRank g i :: (t.map Item.old).map (itemId g) = _
      rw [h i (List.mem_cons_self i t),
        ih (fun j hj => h j (List.mem_cons_of_mem i hj))]

theorem buildNodes_all_old (w : Nat) :
    ∀ (orig : List Node) (k : Nat),
      buildNodes w orig k ((List.range' k orig.length).map Item.old) =
        orig.map (fun n => ⟨n.id, n.sym, n.weight + w⟩) := by
  intro orig
  induction orig with
  | nil => intro k; rfl
  | cons n rest ih =>
      intro k
      show buildNodes w (n :: rest) k
        ((List.range' k (rest.length + 1)).map Item.old) = _
      rw [List.range'_succ, List.map_cons]
      show (emitUpTo w k (n :: rest) k).1 ++
        buildNodes w (emitUpTo w k (n :: rest) k).2 (k + 1)
          ((List.range' (k + 1) rest.length).map Item.old) = _
      have hemit : emitUpTo w k (n :: rest) k =
          ([{ n with weight := n.weight + w }], rest) := by
        unfold emitUpTo
        rw [if_pos rfl]
      rw [hemit]
      show { n with weight := n.weight + w } ::
        buildNodes w rest (k + 1) ((List.range' (k + 1) rest.length).map Item.old) = _
      rw [ih (k + 1)]
      rfl

theorem chainNodes_map_bump (w0 w : Nat) :
    ∀ (s : List Char) (i0 : Nat),
      (chainNodes w0 i0 s).map (fun n => (⟨n.id, n.sym, n.weight + w⟩ : Node)) =
        chainNodes (w0 + w) i0 s := by
  intro s
  induction s with
  | nil => intro i0; rfl
  | cons c t ih =>
      intro i0
      show (⟨i0, c, w0 + w⟩ : Node) :: (chainNodes w0 (i0 + 1) t).map _ = _
      rw [ih (i0 + 1)]
      rfl

theorem ape_chain_bump (w0 w : Nat) :
    ∀ (sfx : List Char) (i : Nat) (A : List Edge), (∀ e ∈ A, e.dst ≤ i) →
      addPathEdges (A ++ chainEdges w0 i sfx) w (List.range' i sfx.length) =
        A ++ chainEdges (w0 + w) i sfx := by
  intro sfx
  induction sfx with
  | nil => intro i A _; simp [chainEdges, addPathEdges]
  | cons c1 t ih =>
      intro i A hA
      cases t with
      | nil =>
          show addPathEdges (A ++ chainEdges w0 i [c1]) w [i] = _
          simp [chainEdges, addPathEdges]
      | cons c2 t' =>
          have hr : List.range' i (c1 :: c2 :: t').length =
              i :: (i + 1) :: List.range' (i + 2) t'.length := by
            simp [List.range'_succ]
          rw [hr]
          show addPathEdges
            (addEdge (A ++ chainEdges w0 i (c1 :: c2 :: t')) i (i + 1) w) w
            ((i + 1) :: List.range' (i + 2) t'.length) = _
          have hmid : (⟨i, i + 1, w0⟩ : Edge) ∈
              A ++ chainEdges w0 i (c1 :: c2 :: t') := by
            apply List.mem_append_right
            exact List.mem_cons_self _ _
          have hex : (A ++ chainEdges w0 i (c1 :: c2 :: t')).any
              (fun e => e.src = i && e.dst = i + 1) = true := by
            apply List.any_eq_true.mpr
            exact ⟨⟨i, i + 1, w0⟩, hmid, by simp⟩
          have haddE : addEdge (A ++ chainEdges w0 i (c1 :: c2 :: t')) i (i + 1) w =
              A ++ (⟨i, i + 1, w0 + w⟩ : Edge) :: chainEdges w0 (i + 1) (c2 :: t') := by
            unfold addEdge
            rw [if_pos hex]
            show (A ++ (⟨i, i + 1, w0⟩ : Edge) :: chainEdges w0 (i + 1) (c2 :: t')).map _ = _
            rw [List.map_append, List.map_cons]
            have hAmap : A.map (fun e =>
                if e.src = i && e.dst = i + 1
                then { e with weight := e.weight + w } else e) = A := by
              have := List.map_congr_left (l := A)
                (f := fun e => if e.src = i && e.dst = i + 1
                  then { e with weight := e.weight + w } else e) (g := id) ?_
              · rw [this, List.map_id]
              · intro e he
                have hd := hA e he
                have : ¬ (e.src = i && e.dst = i + 1) = true := by
                  simp only [Bool.and_eq_true, decide_eq_true_eq]
                  intro hcon
                  omega
                simp only [id_eq, if_neg this]
            have hmidmap : (if (⟨i, i + 1, w0⟩ : Edge).src = i &&
                (⟨i, i + 1, w0⟩ : Edge).dst = i + 1
                then { (⟨i, i + 1, w0⟩ : Edge) with
                  weight := (⟨i, i + 1, w0⟩ : Edge).weight + w }
                else (⟨i, i + 1, w0⟩ : Edge)) = (⟨i, i + 1, w0 + w⟩ : Edge) := by
              rw [if_pos (by simp)]
            have hCmap : (chainEdges w0 (i + 1) (c2 :: t')).map (fun e =>
                if e.src = i && e.dst = i + 1
                then { e with weight := e.weight + w } else e) =
                chainEdges w0 (i + 1) (c2 :: t') := by
              have := List.map_congr_left (l := chainEdges w0 (i + 1) (c2 :: t'))
                (f := fun e => if e.src = i && e.dst = i + 1
                  then { e with weight := e.weight + w } else e) (g := id) ?_
              · rw [this, List.map_id]
              · intro e he
                obtain ⟨h1, _, _, _⟩ := chainEdges_mem w0 (c2 :: t') (i + 1) e he
                have : ¬ (e.src = i && e.dst = i + 1) = true := by
                  simp only [Bool.and_eq_true, decide_eq_true_eq]
                  intro hcon
                  omega
                simp only [id_eq, if_neg this]
            rw [hAmap, hmidmap, hCmap]
          rw [haddE]
          have hassoc : A ++ (⟨i, i + 1, w0 + w⟩ : Edge) ::
              chainEdges w0 (i + 1) (c2 :: t') =
              (A ++ [(⟨i, i + 1, w0 + w⟩ : Edge)]) ++
                chainEdges w0 (i + 1) (c2 :: t') := by
            simp
          rw [hassoc]
          have hr2 : (i + 1) :: List.range' (i + 2) t'.length =
              List.range' (i + 1) (c2 :: t').length := by
            simp [List.range'_succ]
          rw [hr2]
          rw [ih (i + 1) (A ++ [(⟨i, i + 1, w0 + w⟩ : Edge)]) (by
            intro e he
            rcases List.mem_append.mp he with hm | hm
            · exact Nat.le_succ_of_le (hA e hm)
            · rcases List.mem_singleton.mp hm with rfl
              exact Nat.le_refl _)]
          simp [chainEdges]

theorem countP_isNew_old (l : List Nat) :
    (l.map Item.old).countP isNew = 0 := by
  induction l with
  | nil => rfl
  | cons i t ih =>
      rw [List.map_cons, List.countP_cons_of_neg _ _ (by simp [isNew]), ih]

/-- Re-inserting s into its own chain graph reuses every node and edge:
the nodes and edges keep their identities with weights incremented by w,
and a second sequence record is appended. -/
theorem addSequenceW_chain_reuse (s : List Char) (sc : Scoring) (w0 w : Nat)
    (hs : validSeq s = true) (hsc : validScoring sc = true) :
    addSequenceW (chainGraph s w0) s sc w =
      .ok ⟨chainNodes (w0 + w) 0 s, chainEdges (w0 + w) 0 s,
        [⟨s, w0, List.range s.length⟩, ⟨s, w, List.range s.length⟩],
        s.length⟩ := by
  obtain ⟨hne, _⟩ := (validSeq_true_iff s).mp hs
  obtain ⟨c, t, rfl⟩ : ∃ c t, s = c :: t := by
    cases s with
    | nil => exact absurd rfl hne
    | cons c t => exact ⟨c, t, rfl⟩
  unfold addSequenceW
  rw [if_neg (by simp [hs]), if_neg (by simp [hsc])]
  rw [traceback_chain (c :: t) sc w0 t.length (by simp)]
  show Except.ok (mutate (chainGraph (c :: t) w0) (c :: t) w
    (positionsOf (chainGraph (c :: t) w0) (c :: t)
      ((List.range (t.length + 1)).map (fun i => Step.mat i i)))) = _
  rw [positionsOf_diag (c :: t) w0 (List.range (t.length + 1))
    (fun i hi => by simp at hi ⊢; omega)]
  unfold mutate
  rw [realize_reuse (c :: t) (List.range (t.length + 1))
    (chainGraph (c :: t) w0).nextId (by simp)]
  show Except.ok (Graph.mk
    (buildNodes w (chainGraph (c :: t) w0).nodes 0
      ((List.range (t.length + 1)).map Item.old))
    (addPathEdges (chainGraph (c :: t) w0).edges w
      (((List.range (t.length + 1)).map Item.old).map
        (itemId (chainGraph (c :: t) w0))))
    ((chainGraph (c :: t) w0).seqs ++
      [⟨c :: t, w, ((List.range (t.length + 1)).map Item.old).map
        (itemId (chainGraph (c :: t) w0))⟩])
    ((chainGraph (c :: t) w0).nextId +
      ((List.range (t.length + 1)).map Item.old).countP isNew)) = _
  rw [map_itemId_old (chainGraph (c :: t) w0) (List.range (t.length + 1))
    (fun i hi => idOfRank_chain (c :: t) w0 i (by simp at hi ⊢; omega))]
  have hnodes : buildNodes w (chainGraph (c :: t) w0).nodes 0
      ((List.range (t.length + 1)).map Item.old) =
      chainNodes (w0 + w) 0 (c :: t) := by
    have hlen : List.range (t.length + 1) =
        List.range' 0 (chainGraph (c :: t) w0).nodes.length := by
      rw [chainGraph_nodes_length]
      simp [List.range_eq_range']
    rw [hlen, buildNodes_all_old w (chainGraph (c :: t) w0).nodes 0]
    show (chainNodes w0 0 (c :: t)).map _ = _
    rw [chainNodes_map_bump w0 w (c :: t) 0]
  have hedges : addPathEdges (chainGraph (c :: t) w0).edges w
      (List.range (t.length + 1)) = chainEdges (w0 + w) 0 (c :: t) := by
    have hlen : List.range (t.length + 1) =
        List.range' 0 (c :: t).length := by
      simp [List.range_eq_range']
    rw [hlen]
    have := ape_chain_bump w0 w (c :: t) 0 [] (by intro e he; cases he)
    simpa using this
  have hcount : ((List.range (t.length + 1)).map Item.old).countP isNew = 0 :=
    countP_isNew_old _
  rw [hnodes, hedges, hcount]
  simp [chainGraph]

theorem chainNodes_mem_weight (w i0 : Nat) :
    ∀ (s : List Char) (n : Node), n ∈ chainNodes w i0 s → n.weight = w := by
  intro s
  induction s generalizing i0 with
  | nil => intro n hn; cases hn
  | cons c t ih =>
      intro n hn
      rcases List.mem_cons.mp hn with rfl | hm
      · rfl
      · exact ih (i0 + 1) n hm

/-- C6: edge insertion never duplicates an edge: when the edge already
exists, addEdge increments its weight by the requested amount and keeps
the edge list the same length (no parallel edge); consequently, inserting
two identical valid sequences successively into the empty store yields a
graph whose node count equals the sequence length and whose node and edge
weights along the shared path all equal two. -/
theorem c6_edge_idempotent_reuse :
    (∀ (es : List Edge) (a b wt : Nat),
      es.any (fun e => e.src = a && e.dst = b) = true →
      addEdge es a b wt = es.map (fun e =>
        if e.src = a && e.dst = b then { e with weight := e.weight + wt }
        else e) ∧ (addEdge es a b wt).length = es.length) ∧
    (∀ (s : List Char) (sc : Scoring),
      validSeq s = true → validScoring sc = true →
      ∃ g1 g2 : Graph, addSequence Graph.empty s sc = .ok g1 ∧
        addSequence g1 s sc = .ok g2 ∧
        g2.nodes.length = s.length ∧
        (∀ e ∈ g2.edges, e.weight = 2) ∧
        (∀ n ∈ g2.nodes, n.weight = 2)) := by
  constructor
  · intro es a b wt hex
    constructor
    · unfold addEdge
      rw [if_pos hex]
    · unfold addEdge
      rw [if_pos hex, List.length_map]
  · intro s sc hs hsc
    refine ⟨chainGraph s 1,
      ⟨chainNodes 2 0 s, chainEdges 2 0 s,
        [⟨s, 1, List.range s.length⟩, ⟨s, 1, List.range s.length⟩],
        s.length⟩, addSequenceW_empty s sc 1 hs hsc, ?_, ?_, ?_, ?_⟩
    · have := addSequenceW_chain_reuse s sc 1 1 hs hsc
      exact this
    · exact chainNodes_length 2 0 s
    · intro e he
      exact (chainEdges_mem 2 s 0 e he).2.2.2
    · intro n hn
      exact chainNodes_mem_weight 2 0 s n hn

/-- C6 witness: the reuse property at the concrete sequence AC. -/
theorem c6_edge_idempotent_reuse_witness :
    addEdge [(⟨0, 1, 1⟩ : Edge)] 0 1 5 = [(⟨0, 1, 6⟩ : Edge)] ∧
    (∃ g1 g2 : Graph, addSequence Graph.empty ['A', 'C'] ⟨1, 2, 1⟩ = .ok g1 ∧
      addSequence g1 ['A', 'C'] ⟨1, 2, 1⟩ = .ok g2 ∧
      g2.nodes.length = 2 ∧
      (∀ e ∈ g2.edges, e.weight = 2) ∧
      (∀ n ∈ g2.nodes, n.weight = 2)) := by
  constructor
  · rw [(c6_edge_idempotent_reuse.1 [(⟨0, 1, 1⟩ : Edge)] 0 1 5 (by decide)).1]
    decide
  · exact c6_edge_idempotent_reuse.2 ['A', 'C'] ⟨1, 2, 1⟩ (by rfl) (by rfl)

theorem mem_insertSorted {le : α → α → Bool} (a : α) :
    ∀ (l : List α) (x : α), x ∈ insertSorted le a l ↔ x = a ∨ x ∈ l := by
  intro l
  induction l with
  | nil => intro x; simp [insertSorted]
  | cons b t ih =>
      intro x
      unfold insertSorted
      by_cases hab : le a b = true
      · rw [if_pos hab]
        simp only [List.mem_cons]
      · rw [if_neg hab]
        simp only [List.mem_cons, ih]
        tauto

theorem insertSorted_pairwise {le : α → α → Bool}
    (htot : ∀ a b, le a b = true ∨ le b a = true)
    (htrans : ∀ a b c, le a b = true → le b c = true → le a c = true) :
    ∀ (l : List α) (a : α), l.Pairwise (fun x y => le x y = true) →
      (insertSorted le a l).Pairwise (fun x y => le x y = true) := by
  intro l
  induction l with
  | nil =>
      intro a _
      exact List.Pairwise.cons (by intro b hb; cases hb) List.Pairwise.nil
  | cons b t ih =>
      intro a hpw
      have hpt : t.Pairwise (fun x y => le x y = true) := hpw.of_cons
      have hbt : ∀ x ∈ t, le b x = true :=
        fun x hx => List.rel_of_pairwise_cons hpw hx
      unfold insertSorted
      by_cases hab : le a b = true
      · rw [if_pos hab]
        refine List.Pairwise.cons ?_ hpw
        intro x hx
        rcases List.mem_cons.mp hx with rfl | hxt
        · exact hab
        · exact htrans a b x hab (hbt x hxt)
      · rw [if_neg hab]
        have hba : le b a = true := by
          rcases htot a b with h | h
          · exact absurd h hab
          · exact h
        refine List.Pairwise.cons ?_ (ih a hpt)
        intro x hx
        rcases (mem_insertSorted a t x).mp hx with rfl | hxt
        · exact hba
        · exact hbt x hxt

theorem isort_pairwise {le : α → α → Bool}
    (htot : ∀ a b, le a b = true ∨ le b a = true)
    (htrans : ∀ a b c, le a b = true → le b c = true → le a c = true) :
    ∀ (l : List α), (isort le l).Pairwise (fun x y => le x y = true) := by
  intro l
  induction l with
  | nil => exact List.Pairwise.nil
  | cons a t ih => exact insertSorted_pairwise htot htrans (isort le t) a ih

theorem sortCands_pairwise (g : Graph) (l : List (Option Nat)) :
    (sortCands g l).Pairwise (fun a b => candId g a ≤ candId g b) := by
  have h := @isort_pairwise (Option Nat)
    (fun a b => decide (candId g a ≤ candId g b))
    (fun a b => by
      rcases Nat.le_total (candId g a) (candId g b) with h | h
      · exact Or.inl (decide_eq_true h)
      · exact Or.inr (decide_eq_true h))
    (fun a b c hab hbc => decide_eq_true
      (Nat.le_trans (of_decide_eq_true hab) (of_decide_eq_true hbc))) l
  exact h.imp (fun hx => of_decide_eq_true hx)

theorem find_first_min {α : Type} {le : α → α → Prop} {p : α → Bool} :
    ∀ {l : List α}, l.Pairwise le → ∀ {a}, l.find? p = some a →
      p a = true ∧ ∀ b ∈ l, p b = true → a = b ∨ le a b := by
  intro l hpw
  induction l with
  | nil => intro a h; cases h
  | cons x t ih =>
      intro a h
      have hxt : ∀ b ∈ t, le x b :=
        fun b hb => List.rel_of_pairwise_cons hpw hb
      cases hpx : p x with
      | true =>
          rw [List.find?_cons_of_pos _ hpx] at h
          cases Option.some.inj h
          refine ⟨hpx, ?_⟩
          intro b hb _
          rcases List.mem_cons.mp hb with rfl | hbt
          · exact Or.inl rfl
          · exact Or.inr (hxt b hbt)
      | false =>
          rw [List.find?_cons_of_neg _ (by simp [hpx])] at h
          obtain ⟨hpa, hmin⟩ := ih hpw.of_cons h
          refine ⟨hpa, ?_⟩
          intro b hb hpb
          rcases List.mem_cons.mp hb with rfl | hbt
          · rw [hpx] at hpb; cases hpb
          · exact hmin b hbt hpb

theorem pairwise_block (g : Graph) (mt : Mat) (l : List (Option Nat)) :
    ((sortCands g l).map (fun u => (mt, u))).Pairwise (tbLE g) := by
  rw [List.pairwise_map]
  exact (sortCands_pairwise g l).imp (fun h => Or.inr ⟨rfl, h⟩)

theorem cross_block (g : Graph) {mt1 mt2 : Mat} (hlt : matIdx mt1 < matIdx mt2)
    {l1 l2 : List (Option Nat)} :
    ∀ a ∈ l1.map (fun u => (mt1, u)), ∀ b ∈ l2.map (fun u => (mt2, u)),
      tbLE g a b := by
  intro a ha b hb
  obtain ⟨u, _, rfl⟩ := List.mem_map.mp ha
  obtain ⟨v, _, rfl⟩ := List.mem_map.mp hb
  exact Or.inl hlt

theorem cands_pairwise (g : Graph) (mat : Mat) (p : Option Nat) :
    (cands g mat p).Pairwise (tbLE g) := by
  cases mat with
  | m =>
      cases p with
      | none => exact List.Pairwise.nil
      | some r =>
          show (((sortCands g (preds g r)).map (fun u => (Mat.m, u))) ++
            (((sortCands g (preds g r)).map (fun u => (Mat.y, u))) ++
              (((sortCands g (preds g r)).map (fun u => (Mat.x, u))) ++
                []))).Pairwise (tbLE g)
          rw [List.append_nil]
          rw [List.pairwise_append]
          refine ⟨pairwise_block g .m _, ?_, ?_⟩
          · rw [List.pairwise_append]
            refine ⟨pairwise_block g .y _, pairwise_block g .x _,
              cross_block g (by decide)⟩
          · intro a ha b hb
            rcases List.mem_append.mp hb with hb1 | hb2
            · exact cross_block g (by decide) a ha b hb1
            · exact cross_block g (by decide) a ha b hb2
  | y =>
      cases p with
      | none => exact List.Pairwise.nil
      | some r =>
          show (((sortCands g (preds g r)).map (fun u => (Mat.m, u))) ++
            ((sortCands g (preds g r)).map (fun u => (Mat.y, u)))).Pairwise
            (tbLE g)
          rw [List.pairwise_append]
          exact ⟨pairwise_block g .m _, pairwise_block g .y _,
            cross_block g (by decide)⟩
  | x =>
      have hbase : ∀ q : Option Nat,
          ([(Mat.m, q), (Mat.x, q)]).Pairwise (tbLE g) := by
        intro q
        refine List.Pairwise.cons ?_
          (List.Pairwise.cons (by intro b hb; cases hb) List.Pairwise.nil)
        intro b hb
        rcases List.mem_singleton.mp hb with rfl
        exact Or.inl (by simp [matIdx])
      cases p with
      | none => exact hbase none
      | some r => exact hbase (some r)

theorem startCands_pairwise (g : Graph) :
    ((([Mat.m, Mat.y, Mat.x]).flatMap
      (fun mt => (sortCands g (sinkCands g)).map (fun u => (mt, u))))).Pairwise
      (tbLE g) := by
  show (((sortCands g (sinkCands g)).map (fun u => (Mat.m, u))) ++
    (((sortCands g (sinkCands g)).map (fun u => (Mat.y, u))) ++
      (((sortCands g (sinkCands g)).map (fun u => (Mat.x, u))) ++
        []))).Pairwise (tbLE g)
  rw [List.append_nil]
  rw [List.pairwise_append]
  refine ⟨pairwise_block g .m _, ?_, ?_⟩
  · rw [List.pairwise_append]
    refine ⟨pairwise_block g .y _, pairwise_block g .x _,
      cross_block g (by decide)⟩
  · intro a ha b hb
    rcases List.mem_append.mp hb with hb1 | hb2
    · exact cross_block g (by decide) a ha b hb1
    · exact cross_block g (by decide) a ha b hb2

/-- C7: alignment and traceback are deterministic: the traceback is a pure
function of the graph, the sequence and the scoring, so two runs on the
same state always produce the same path; and ties are resolved exactly by
the documented policy: every candidate list is ordered by matrix M before
Y before X, then by ascending node identifier, and the chosen predecessor
(of any cell, and of the start cell at the sink) is the earliest candidate
in that tie-break order whose score accounts for the cell value. -/
theorem c7_deterministic_tiebreak :
    (∀ (g : Graph) (s : List Char) (sc : Scoring) (t1 t2 : Option (List Step)),
      traceback g s sc = t1 → traceback g s sc = t2 → t1 = t2) ∧
    (∀ (g : Graph) (s : List Char) (sc : Scoring) (mat : Mat) (p : Option Nat)
      (j : Nat) (v : Int) (c : Mat × Option Nat),
      (cands g mat p).find? (candCheck g s sc mat p j v) = some c →
      candCheck g s sc mat p j v c = true ∧
      ∀ d ∈ cands g mat p, candCheck g s sc mat p j v d = true →
        c = d ∨ tbLE g c d) ∧
    (∀ (g : Graph) (s : List Char) (sc : Scoring) (v : Int)
      (c : Mat × Option Nat),
      (([Mat.m, Mat.y, Mat.x]).flatMap
        (fun mt => (sortCands g (sinkCands g)).map (fun u => (mt, u)))).find?
        (fun d => decide (score g s sc d.1 d.2 s.length = some v)) = some c →
      decide (score g s sc c.1 c.2 s.length = some v) = true ∧
      ∀ d ∈ (([Mat.m, Mat.y, Mat.x]).flatMap
        (fun mt => (sortCands g (sinkCands g)).map (fun u => (mt, u)))),
        decide (score g s sc d.1 d.2 s.length = some v) = true →
        c = d ∨ tbLE g c d) := by
  refine ⟨?_, ?_, ?_⟩
  · intro g s sc t1 t2 h1 h2
    rw [← h1, ← h2]
  · intro g s sc mat p j v c hfind
    exact find_first_min (cands_pairwise g mat p) hfind
  · intro g s sc v c hfind
    exact find_first_min (startCands_pairwise g) hfind

/-- C7 witness: the tie-break selection at a concrete cell: on the empty
store, the X cell of column one accounts its value to the M matrix of the
start row, which is first in the tie-break order among the achievers. -/
theorem c7_deterministic_tiebreak_witness :
    candCheck Graph.empty ['A'] ⟨1, 1, 1⟩ .x none 1 (-1) (Mat.m, none) = true ∧
    ∀ d ∈ cands Graph.empty .x none,
      candCheck Graph.empty ['A'] ⟨1, 1, 1⟩ .x none 1 (-1) d = true →
      (Mat.m, (none : Option Nat)) = d ∨ tbLE Graph.empty (Mat.m, none) d :=
  c7_deterministic_tiebreak.2.1 Graph.empty ['A'] ⟨1, 1, 1⟩ .x none 1 (-1)
    (Mat.m, none) (by decide)

theorem mem_isort {le : α → α → Bool} :
    ∀ (l : List α) (x : α), x ∈ isort le l ↔ x ∈ l := by
  intro l
  induction l with
  | nil => intro x; rfl
  | cons a t ih =>
      intro x
      show x ∈ insertSorted le a (isort le t) ↔ _
      rw [mem_insertSorted, ih]
      simp [List.mem_cons]

theorem mem_sortCands (g : Graph) (l : List (Option Nat)) (x : Option Nat) :
    x ∈ sortCands g l ↔ x ∈ l :=
  mem_isort l x

/-- Graph ranks touched by match steps of a traceback are strictly
increasing, below the cell row, and within the store. -/
theorem tb_mat_ranks (g : Graph) (s : List Char) (sc : Scoring) :
    ∀ (fuel : Nat) (mat : Mat) (p : Option Nat) (j : Nat) (steps : List Step),
      tbF g s sc fuel mat p j = some steps →
      rowRank p ≤ g.nodes.length →
      (steps.filterMap (fun st => match st with
        | Step.mat r _ => some r | _ => none)).Pairwise (· < ·) ∧
      (∀ r ∈ steps.filterMap (fun st => match st with
        | Step.mat r _ => some r | _ => none),
        r + 1 ≤ rowRank p ∧ r < g.nodes.length) := by
  intro fuel
  induction fuel with
  | zero =>
      intro mat p j steps htb
      exact absurd htb (by simp [tbF])
  | succ f ih =>
      intro mat p j steps htb hrow
      cases mat with
      | m =>
          cases p with
          | none =>
              simp only [tbF] at htb
              by_cases hj : j = 0
              · subst hj
                rw [if_pos rfl] at htb
                cases htb
                exact ⟨List.Pairwise.nil, by intro r hr; cases hr⟩
              · rw [if_neg hj] at htb
                exact absurd htb (by simp)
          | some r =>
              cases j with
              | zero => exact absurd htb (by simp [tbF])
              | succ j' =>
                  simp only [tbF] at htb
                  cases hv : score g s sc .m (some r) (j' + 1) with
                  | none => rw [hv] at htb; simp at htb
                  | some v =>
                      rw [hv] at htb
                      cases hf : (cands g .m (some r)).find?
                          (candCheck g s sc .m (some r) (j' + 1) v) with
                      | none => simp only [hf] at htb; exact absurd htb (by simp)
                      | some c =>
                          obtain ⟨mt, u⟩ := c
                          simp only [hf] at htb
                          obtain ⟨pre, hpre, rfl⟩ := Option.map_eq_some'.mp htb
                          have hmem := List.mem_of_find?_eq_some hf
                          have humem : u ∈ preds g r := by
                            simp only [cands, List.mem_flatMap,
                              List.mem_map] at hmem
                            obtain ⟨mt', _, u', hu', hequ⟩ := hmem
                            cases hequ
                            exact (mem_sortCands g _ u).mp hu'
                          have hur : rowRank u ≤ r := mem_preds_rowRank g r u humem
                          have hrn : r < g.nodes.length := by
                            have : rowRank (some r) = r + 1 := rfl
                            omega
                          obtain ⟨hpw, hbd⟩ := ih mt u j' pre hpre (by omega)
                          rw [List.filterMap_append]
                          constructor
                          · rw [List.pairwise_append]
                            refine ⟨hpw, by simp, ?_⟩
                            intro a ha b hb
                            simp only [List.filterMap_cons] at hb
                            rcases List.mem_singleton.mp (by simpa using hb) with rfl
                            have := hbd a ha
                            omega
                          · intro x hx
                            rcases List.mem_append.mp hx with hx1 | hx2
                            · have := hbd x hx1
                              have hrr : rowRank (some r) = r + 1 := rfl
                              omega
                            · have hxr : x = r :=
                                List.mem_singleton.mp (by simpa using hx2)
                              have hrr : rowRank (some r) = r + 1 := rfl
                              omega
      | y =>
          cases p with
          | none => exact absurd htb (by simp [tbF])
          | some r =>
              simp only [tbF] at htb
              cases hv : score g s sc .y (some r) j with
              | none => rw [hv] at htb; simp at htb
              | some v =>
                  rw [hv] at htb
                  cases hf : (cands g .y (some r)).find?
                      (candCheck g s sc .y (some r) j v) with
                  | none => simp only [hf] at htb; exact absurd htb (by simp)
                  | some c =>
                      obtain ⟨mt, u⟩ := c
                      simp only [hf] at htb
                      obtain ⟨pre, hpre, rfl⟩ := Option.map_eq_some'.mp htb
                      have hmem := List.mem_of_find?_eq_some hf
                      have humem : u ∈ preds g r := by
                        simp only [cands, List.mem_append, List.mem_map] at hmem
                        rcases hmem with ⟨u', hu', hequ⟩ | ⟨u', hu', hequ⟩ <;>
                          cases hequ <;>
                          exact (mem_sortCands g _ u).mp hu'
                      have hur : rowRank u ≤ r := mem_preds_rowRank g r u humem
                      have hrr : rowRank (some r) = r + 1 := rfl
                      obtain ⟨hpw, hbd⟩ := ih mt u j pre hpre (by omega)
                      rw [List.filterMap_append]
                      have hfm : ([Step.del r]).filterMap (fun st => match st with
                          | Step.mat r _ => some r | _ => none) = [] := rfl
                      rw [hfm, List.append_nil]
                      refine ⟨hpw, ?_⟩
                      intro x hx
                      have := hbd x hx
                      have hrr : rowRank (some r) = r + 1 := rfl
                      omega
      | x =>
          cases j with
          | zero =>
              cases p with
              | none => exact absurd htb (by simp [tbF])
              | some r => exact absurd htb (by simp [tbF])
          | succ j' =>
              have hx : ∀ (pp : Option Nat),
                  tbF g s sc (f + 1) .x pp (j' + 1) = some steps →
                  rowRank pp ≤ g.nodes.length →
                  (steps.filterMap (fun st => match st with
                    | Step.mat r _ => some r | _ => none)).Pairwise (· < ·) ∧
                  (∀ r ∈ steps.filterMap (fun st => match st with
                    | Step.mat r _ => some r | _ => none),
                    r + 1 ≤ rowRank pp ∧ r < g.nodes.length) := by
                intro pp htb' hrow'
                cases pp with
                | none =>
                    simp only [tbF] at htb'
                    cases hv : score g s sc .x none (j' + 1) with
                    | none => rw [hv] at htb'; simp at htb'
                    | some v =>
                        rw [hv] at htb'
                        cases hf : (cands g .x none).find?
                            (candCheck g s sc .x none (j' + 1) v) with
                        | none => simp only [hf] at htb'; exact absurd htb' (by simp)
                        | some c =>
                            obtain ⟨mt, u⟩ := c
                            simp only [hf] at htb'
                            obtain ⟨pre, hpre, rfl⟩ :=
                              Option.map_eq_some'.mp htb'
                            have hmem := List.mem_of_find?_eq_some hf
                            rw [show cands g .x none =
                              [(Mat.m, none), (Mat.x, none)] from rfl] at hmem
                            have hu : u = none := by
                              rcases List.mem_cons.mp hmem with h | h
                              · cases h; rfl
                              · rcases List.mem_singleton.mp h with h'
                                cases h'; rfl
                            subst hu
                            obtain ⟨hpw, hbd⟩ := ih mt none j' pre hpre (by
                              show rowRank none ≤ _
                              simp [rowRank])
                            rw [List.filterMap_append]
                            have hfm : ([Step.ins j']).filterMap
                                (fun st => match st with
                                | Step.mat r _ => some r | _ => none) = [] := rfl
                            rw [hfm, List.append_nil]
                            exact ⟨hpw, hbd⟩
                | some r =>
                    simp only [tbF] at htb'
                    cases hv : score g s sc .x (some r) (j' + 1) with
                    | none => rw [hv] at htb'; simp at htb'
                    | some v =>
                        rw [hv] at htb'
                        cases hf : (cands g .x (some r)).find?
                            (candCheck g s sc .x (some r) (j' + 1) v) with
                        | none => simp only [hf] at htb'; exact absurd htb' (by simp)
                        | some c =>
                            obtain ⟨mt, u⟩ := c
                            simp only [hf] at htb'
                            obtain ⟨pre, hpre, rfl⟩ :=
                              Option.map_eq_some'.mp htb'
                            have hmem := List.mem_of_find?_eq_some hf
                            rw [show cands g .x (some r) =
                              [(Mat.m, some r), (Mat.x, some r)] from rfl] at hmem
                            have hu : u = some r := by
                              rcases List.mem_cons.mp hmem with h | h
                              · cases h; rfl
                              · rcases List.mem_singleton.mp h with h'
                                cases h'; rfl
                            subst hu
                            obtain ⟨hpw, hbd⟩ := ih mt (some r) j' pre hpre hrow'
                            rw [List.filterMap_append]
                            have hfm : ([Step.ins j']).filterMap
                                (fun st => match st with
                                | Step.mat r _ => some r | _ => none) = [] := rfl
                            rw [hfm, List.append_nil]
                            exact ⟨hpw, hbd⟩
              cases p with
              | none => exact hx none htb hrow
              | some r => exact hx (some r) htb hrow

/-- The ranks the mutator reuses are a sub-sequence of the ranks the
traceback matched. -/
theorem positionsOf_reuse_sub (g : Graph) (s : List Char) :
    ∀ steps : List Step,
      ((positionsOf g s steps).filterMap (fun pa => match pa with
        | PosA.reuse r => some r | _ => none)).Sublist
      (steps.filterMap (fun st => match st with
        | Step.mat r _ => some r | _ => none)) := by
  intro steps
  induction steps with
  | nil => exact List.Sublist.refl _
  | cons st rest ih =>
      cases st with
      | mat r j =>
          show ((if symOfRank g r = s.getD j 'A' then PosA.reuse r
            else PosA.fresh) :: positionsOf g s rest).filterMap _ |>.Sublist
            (r :: rest.filterMap _)
          by_cases hsym : symOfRank g r = s.getD j 'A'
          · rw [if_pos hsym]
            exact List.Sublist.cons₂ r ih
          · rw [if_neg hsym]
            exact List.Sublist.cons r ih
      | del r =>
          show ((positionsOf g s rest).filterMap _).Sublist (rest.filterMap _)
          exact ih
      | ins j =>
          show ((PosA.fresh :: positionsOf g s rest).filterMap _).Sublist
            (rest.filterMap _)
          exact ih

/-- The ranks realized as reuses are a sub-sequence of the reuse ranks of
the positions list. -/
theorem realize_oldRanks_sub :
    ∀ (s' : List Char) (pos : List PosA) (nid : Nat),
      ((realize nid (s'.zip pos)).filterMap (fun it => match it with
        | Item.old r => some r | _ => none)).Sublist
      (pos.filterMap (fun pa => match pa with
        | PosA.reuse r => some r | _ => none)) := by
  intro s'
  induction s' with
  | nil =>
      intro pos nid
      cases pos <;> exact List.nil_sublist _
  | cons c t ih =>
      intro pos nid
      cases pos with
      | nil => exact List.nil_sublist _
      | cons pa ps =>
          cases pa with
          | reuse r =>
              show (Item.old r :: realize nid (t.zip ps)).filterMap _ |>.Sublist
                (r :: ps.filterMap _)
              exact List.Sublist.cons₂ r (ih ps nid)
          | fresh =>
              show (Item.new nid c :: realize (nid + 1) (t.zip ps)).filterMap _
                |>.Sublist (ps.filterMap _)
              exact ih ps (nid + 1)

/-- Fresh identifiers assigned by realize: consecutive from the supply. -/
theorem realize_newIds_facts :
    ∀ (l : List (Char × PosA)) (nid : Nat),
      (∀ i ∈ (realize nid l).filterMap (fun it => match it with
        | Item.new i _ => some i | _ => none),
        nid ≤ i ∧ i < nid + (realize nid l).countP isNew) ∧
      ((realize nid l).filterMap (fun it => match it with
        | Item.new i _ => some i | _ => none)).Pairwise (· < ·) := by
  intro l
  induction l with
  | nil =>
      intro nid
      refine ⟨?_, List.Pairwise.nil⟩
      intro i hi
      cases hi
  | cons cp rest ih =>
      intro nid
      obtain ⟨c, pa⟩ := cp
      cases pa with
      | reuse r =>
          have hre : realize nid ((c, PosA.reuse r) :: rest) =
              Item.old r :: realize nid rest := rfl
          rw [hre]
          have hcount : (Item.old r :: realize nid rest).countP isNew =
              (realize nid rest).countP isNew := by
            rw [List.countP_cons_of_neg]
            intro h
            cases h
          have hfm : (Item.old r :: realize nid rest).filterMap
              (fun it => match it with
                | Item.new i _ => some i | _ => none) =
              (realize nid rest).filterMap (fun it => match it with
                | Item.new i _ => some i | _ => none) := rfl
          rw [hfm, hcount]
          exact ih nid
      | fresh =>
          have hre : realize nid ((c, PosA.fresh) :: rest) =
              Item.new nid c :: realize (nid + 1) rest := rfl
          rw [hre]
          have hcount : (Item.new nid c :: realize (nid + 1) rest).countP isNew =
              (realize (nid + 1) rest).countP isNew + 1 := by
            rw [List.countP_cons_of_pos]
            rfl
          have hfm : (Item.new nid c :: realize (nid + 1) rest).filterMap
              (fun it => match it with
                | Item.new i _ => some i | _ => none) =
              nid :: (realize (nid + 1) rest).filterMap (fun it => match it with
                | Item.new i _ => some i | _ => none) := rfl
          rw [hfm, hcount]
          constructor
          · intro i hi
            rcases List.mem_cons.mp hi with heq | hm
            · omega
            · have := (ih (nid + 1)).1 i hm
              omega
          · refine List.Pairwise.cons ?_ (ih (nid + 1)).2
            intro i hi
            have := (ih (nid + 1)).1 i hi
            omega

theorem mem_zip_tail_sublist :
    ∀ (l : List Nat) (x y : Nat), (x, y) ∈ l.zip l.tail → ([x, y]).Sublist l := by
  intro l
  induction l with
  | nil => intro x y h; cases h
  | cons a rest ih =>
      intro x y h
      cases rest with
      | nil => cases h
      | cons b rest' =>
          rcases List.mem_cons.mp h with heq | hm
          · cases heq
            exact List.Sublist.cons₂ _ (List.Sublist.cons₂ _ (List.nil_sublist _))
          · exact List.Sublist.cons a (ih x y hm)

/-- emitUpTo only rearranges the node list into a prefix and a suffix: the
identifier sequence is untouched. -/
theorem emitUpTo_ids (w r : Nat) :
    ∀ (l : List Node) (k : Nat),
      ((emitUpTo w r l k).1 ++ (emitUpTo w r l k).2).map Node.id =
        l.map Node.id := by
  intro l
  induction l with
  | nil => intro k; rfl
  | cons n rest ih =>
      intro k
      by_cases hk : k = r
      · simp only [emitUpTo, hk, if_pos rfl]
        rfl
      · simp only [emitUpTo, if_neg hk, List.cons_append, List.map_cons]
        rw [ih (k + 1)]

/-- Every original node survives emitUpTo: either bumped in the prefix with
the same identity, or unchanged in the suffix. -/
theorem emitUpTo_mem (w r : Nat) :
    ∀ (l : List Node) (k : Nat), ∀ n ∈ l,
      (∃ m ∈ (emitUpTo w r l k).1,
        m.id = n.id ∧ m.sym = n.sym ∧ n.weight ≤ m.weight) ∨
      n ∈ (emitUpTo w r l k).2 := by
  intro l
  induction l with
  | nil => intro k n hn; cases hn
  | cons a rest ih =>
      intro k n hn
      by_cases hk : k = r
      · simp only [emitUpTo, hk, if_pos rfl]
        rcases List.mem_cons.mp hn with rfl | hm
        · exact Or.inl ⟨{ n with weight := n.weight + w }, List.mem_singleton.mpr rfl,
            rfl, rfl, Nat.le_add_right _ _⟩
        · exact Or.inr hm
      · simp only [emitUpTo, if_neg hk]
        rcases List.mem_cons.mp hn with rfl | hm
        · exact Or.inl ⟨n, List.mem_cons_self _ _, rfl, rfl, Nat.le_refl _⟩
        · rcases ih (k + 1) n hm with ⟨m, hmm, hfacts⟩ | hsuf
          · exact Or.inl ⟨m, List.mem_cons_of_mem _ hmm, hfacts⟩
          · exact Or.inr hsuf

theorem getD_drop_node :
    ∀ (l : List Node) (k i : Nat), (l.drop k).getD i default = l.getD (k + i) default := by
  intro l
  induction l with
  | nil => intro k i; cases k <;> rfl
  | cons a rest ih =>
      intro k i
      cases k with
      | zero =>
          rw [Nat.zero_add]
          rfl
      | succ k' =>
          rw [show k' + 1 + i = (k' + i) + 1 from by omega]
          show (rest.drop k').getD i default = rest.getD (k' + i) default
          exact ih k' i

theorem drop_drop_node :
    ∀ (l : List Node) (k m : Nat), (l.drop k).drop m = l.drop (k + m) := by
  intro l
  induction l with
  | nil => intro k m; cases k <;> cases m <;> rfl
  | cons a rest ih =>
      intro k m
      cases k with
      | zero =>
          rw [Nat.zero_add]
          rfl
      | succ k' =>
          rw [show k' + 1 + m = (k' + m) + 1 from by omega]
          show (rest.drop k').drop m = rest.drop (k' + m)
          exact ih k' m

/-- When the searched rank is present in the suffix, emitUpTo ends its
prefix exactly at that rank and leaves the rest of the list as suffix. -/
theorem emitUpTo_struct (w r : Nat) :
    ∀ (l : List Node) (k : Nat), k ≤ r → r - k < l.length →
      (∃ X, (emitUpTo w r l k).1.map Node.id =
        X ++ [(l.getD (r - k) default).id]) ∧
      (emitUpTo w r l k).2 = l.drop (r - k + 1) := by
  intro l
  induction l with
  | nil =>
      intro k hk hlen
      exact absurd hlen (by simp)
  | cons n rest ih =>
      intro k hk hlen
      by_cases hkr : k = r
      · subst hkr
        simp only [emitUpTo, if_pos rfl]
        rw [Nat.sub_self]
        exact ⟨⟨[], rfl⟩, rfl⟩
      · simp only [emitUpTo, if_neg hkr]
        have hk1 : k + 1 ≤ r := by omega
        have hlen1 : r - (k + 1) < rest.length := by
          have : rest.length + 1 = (n :: rest).length := rfl
          omega
        obtain ⟨⟨X, hX⟩, hsuf⟩ := ih (k + 1) hk1 hlen1
        have hsub : r - k = (r - (k + 1)) + 1 := by omega
        constructor
        · refine ⟨n.id :: X, ?_⟩
          rw [List.map_cons, hX, hsub]
          rfl
        · rw [hsuf, hsub]
          rfl

/-- The identifiers of buildNodes are a permutation of the original
identifiers together with the fresh identifiers of the realized items. -/
theorem bn_ids_perm (w : Nat) :
    ∀ (items : List Item) (orig : List Node) (k : Nat),
      ((buildNodes w orig k items).map Node.id).Perm
        (orig.map Node.id ++ items.filterMap (fun it => match it with
          | Item.new i _ => some i | _ => none)) := by
  intro items
  induction items with
  | nil =>
      intro orig k
      show (orig.map Node.id).Perm (orig.map Node.id ++ [])
      rw [List.append_nil]
  | cons it rest ih =>
      intro orig k
      cases it with
      | new i c =>
          show ((⟨i, c, w⟩ : Node).id :: (buildNodes w orig k rest).map Node.id).Perm
            (orig.map Node.id ++ (i :: rest.filterMap _))
          refine List.Perm.trans (List.Perm.cons i (ih orig k)) ?_
          exact (List.perm_middle).symm
      | old r =>
          simp only [buildNodes]
          rw [List.map_append]
          refine List.Perm.trans
            (List.Perm.append_left _ (ih (emitUpTo w r orig k).2 (r + 1))) ?_
          rw [show (emitUpTo w r orig k).1.map Node.id ++
              ((emitUpTo w r orig k).2.map Node.id ++ rest.filterMap (fun it =>
                match it with | Item.new i _ => some i | _ => none)) =
              ((emitUpTo w r orig k).1.map Node.id ++
                (emitUpTo w r orig k).2.map Node.id) ++ rest.filterMap (fun it =>
                match it with | Item.new i _ => some i | _ => none) from
            (List.append_assoc _ _ _).symm]
          rw [show (emitUpTo w r orig k).1.map Node.id ++
              (emitUpTo w r orig k).2.map Node.id =
              ((emitUpTo w r orig k).1 ++ (emitUpTo w r orig k).2).map Node.id from
            (List.map_append _ _ _).symm]
          rw [emitUpTo_ids w r orig k]
          exact List.Perm.refl _

/-- The original identifier sequence survives buildNodes as a
sub-sequence. -/
theorem bn_old_sub (w : Nat) :
    ∀ (items : List Item) (orig : List Node) (k : Nat),
      (orig.map Node.id).Sublist ((buildNodes w orig k items).map Node.id) := by
  intro items
  induction items with
  | nil => intro orig k; exact List.Sublist.refl _
  | cons it rest ih =>
      intro orig k
      cases it with
      | new i c =>
          exact List.Sublist.cons _ (ih orig k)
      | old r =>
          simp only [buildNodes]
          rw [List.map_append]
          have horig : orig.map Node.id =
              (emitUpTo w r orig k).1.map Node.id ++
              (emitUpTo w r orig k).2.map Node.id := by
            rw [show (emitUpTo w r orig k).1.map Node.id ++
                (emitUpTo w r orig k).2.map Node.id =
                ((emitUpTo w r orig k).1 ++ (emitUpTo w r orig k).2).map Node.id from
              (List.map_append _ _ _).symm]
            rw [emitUpTo_ids w r orig k]
          rw [horig]
          exact List.Sublist.append (List.Sublist.refl _)
            (ih (emitUpTo w r orig k).2 (r + 1))

/-- Every original node survives buildNodes with identity intact and weight
not decreased. -/
theorem bn_old_weight (w : Nat) :
    ∀ (items : List Item) (orig : List Node) (k : Nat), ∀ n ∈ orig,
      ∃ m ∈ buildNodes w orig k items,
        m.id = n.id ∧ m.sym = n.sym ∧ n.weight ≤ m.weight := by
  intro items
  induction items with
  | nil =>
      intro orig k n hn
      exact ⟨n, hn, rfl, rfl, Nat.le_refl _⟩
  | cons it rest ih =>
      intro orig k n hn
      cases it with
      | new i c =>
          obtain ⟨m, hm, hfacts⟩ := ih orig k n hn
          exact ⟨m, List.mem_cons_of_mem _ hm, hfacts⟩
      | old r =>
          simp only [buildNodes]
          rcases emitUpTo_mem w r orig k n hn with ⟨m, hm, hfacts⟩ | hsuf
          · exact ⟨m, List.mem_append_left _ hm, hfacts⟩
          · obtain ⟨m, hm, hfacts⟩ := ih (emitUpTo w r orig k).2 (r + 1) n hsuf
            exact ⟨m, List.mem_append_right _ hm, hfacts⟩

/-- When the reused ranks of the realized items are strictly increasing
and in range, the realized path identifiers form a sub-sequence of the
rebuilt node list's identifiers. -/
theorem bn_realized_sub (g : Graph) (w : Nat) :
    ∀ (items : List Item) (k : Nat),
      (items.filterMap (fun it => match it with
        | Item.old r => some r | _ => none)).Pairwise (· < ·) →
      (∀ r ∈ items.filterMap (fun it => match it with
        | Item.old r => some r | _ => none), k ≤ r ∧ r < g.nodes.length) →
      (items.map (itemId g)).Sublist
        ((buildNodes w (g.nodes.drop k) k items).map Node.id) := by
  intro items
  induction items with
  | nil => intro k _ _; exact List.nil_sublist _
  | cons it rest ih =>
      intro k hpw hbd
      cases it with
      | new i c =>
          have hfm : (Item.new i c :: rest).filterMap (fun it => match it with
              | Item.old r => some r | _ => none) =
              rest.filterMap (fun it => match it with
                | Item.old r => some r | _ => none) := rfl
          rw [hfm] at hpw hbd
          exact List.Sublist.cons₂ _ (ih k hpw hbd)
      | old r =>
          have hfm : (Item.old r :: rest).filterMap (fun it => match it with
              | Item.old r => some r | _ => none) =
              r :: rest.filterMap (fun it => match it with
                | Item.old r => some r | _ => none) := rfl
          rw [hfm] at hpw hbd
          have hr := hbd r (List.mem_cons_self _ _)
          have hlen_drop : r - k < (g.nodes.drop k).length := by
            rw [List.length_drop]
            omega
          obtain ⟨⟨X, hX⟩, hsuf⟩ :=
            emitUpTo_struct w r (g.nodes.drop k) k hr.1 hlen_drop
          have hgetD : (g.nodes.drop k).getD (r - k) default =
              g.nodes.getD r default := by
            rw [getD_drop_node]
            rw [show k + (r - k) = r from by omega]
          rw [hgetD] at hX
          have hdrop : (g.nodes.drop k).drop (r - k + 1) = g.nodes.drop (r + 1) := by
            rw [drop_drop_node]
            rw [show k + (r - k + 1) = r + 1 from by omega]
          have hpw' := List.Pairwise.of_cons hpw
          have hbd' : ∀ r' ∈ rest.filterMap (fun it => match it with
              | Item.old r => some r | _ => none), r + 1 ≤ r' ∧ r' < g.nodes.length := by
            intro r' hr'
            have hlt : r < r' := List.rel_of_pairwise_cons hpw hr'
            have := hbd r' (List.mem_cons_of_mem _ hr')
            omega
          have hih := ih (r + 1) hpw' hbd'
          simp only [buildNodes]
          rw [hsuf, hdrop, List.map_append, hX]
          show ((g.nodes.getD r default).id :: rest.map (itemId g)).Sublist _
          have h1 : ((g.nodes.getD r default).id :: rest.map (itemId g)).Sublist
              ((g.nodes.getD r default).id ::
                (buildNodes w (g.nodes.drop (r + 1)) (r + 1) rest).map Node.id) :=
            List.Sublist.cons₂ _ hih
          have h2 : ((g.nodes.getD r default).id ::
              (buildNodes w (g.nodes.drop (r + 1)) (r + 1) rest).map Node.id).Sublist
              (X ++ ((g.nodes.getD r default).id ::
                (buildNodes w (g.nodes.drop (r + 1)) (r + 1) rest).map Node.id)) :=
            List.sublist_append_right X _
          rw [List.append_assoc, List.cons_append, List.nil_append]
          exact h1.trans h2

/-- Shape of every member of addEdge: an old edge with weight not
decreased, or the requested endpoint pair. -/
theorem addEdge_mem_shape (es : List Edge) (a b w : Nat) :
    ∀ e' ∈ addEdge es a b w,
      (∃ e ∈ es, e'.src = e.src ∧ e'.dst = e.dst ∧ e.weight ≤ e'.weight) ∨
      (e'.src = a ∧ e'.dst = b) := by
  intro e' he'
  by_cases hany : es.any (fun e => e.src = a && e.dst = b) = true
  · rw [addEdge, if_pos hany] at he'
    obtain ⟨e, he, heq⟩ := List.mem_map.mp he'
    by_cases hm : (e.src = a && e.dst = b) = true
    · rw [if_pos hm] at heq
      refine Or.inl ⟨e, he, ?_, ?_, ?_⟩
      · rw [← heq]
      · rw [← heq]
      · rw [← heq]
        exact Nat.le_add_right _ _
    · rw [if_neg hm] at heq
      subst heq
      exact Or.inl ⟨e, he, rfl, rfl, Nat.le_refl _⟩
  · rw [addEdge, if_neg hany] at he'
    rcases List.mem_append.mp he' with h | h
    · exact Or.inl ⟨e', h, rfl, rfl, Nat.le_refl _⟩
    · have heq : e' = ⟨a, b, w⟩ := List.mem_singleton.mp h
      subst heq
      exact Or.inr ⟨rfl, rfl⟩

/-- Every old edge survives addEdge with the same endpoints and weight not
decreased. -/
theorem addEdge_mem_old (es : List Edge) (a b w : Nat) :
    ∀ e ∈ es, ∃ e' ∈ addEdge es a b w,
      e'.src = e.src ∧ e'.dst = e.dst ∧ e.weight ≤ e'.weight := by
  intro e he
  by_cases hany : es.any (fun e => e.src = a && e.dst = b) = true
  · rw [addEdge, if_pos hany]
    by_cases hm : (e.src = a && e.dst = b) = true
    · refine ⟨{ e with weight := e.weight + w }, ?_, rfl, rfl, Nat.le_add_right _ _⟩
      refine List.mem_map.mpr ⟨e, he, ?_⟩
      show (if e.src = a && e.dst = b then ({ e with weight := e.weight + w } : Edge)
        else e) = { e with weight := e.weight + w }
      rw [if_pos hm]
    · refine ⟨e, ?_, rfl, rfl, Nat.le_refl _⟩
      refine List.mem_map.mpr ⟨e, he, ?_⟩
      show (if e.src = a && e.dst = b then ({ e with weight := e.weight + w } : Edge)
        else e) = e
      rw [if_neg hm]
  · rw [addEdge, if_neg hany]
    exact ⟨e, List.mem_append_left _ he, rfl, rfl, Nat.le_refl _⟩

/-- addEdge never introduces a duplicate endpoint pair. -/
theorem addEdge_shapes_nodup (es : List Edge) (a b w : Nat)
    (h : (es.map (fun e => (e.src, e.dst))).Nodup) :
    ((addEdge es a b w).map (fun e => (e.src, e.dst))).Nodup := by
  by_cases hany : es.any (fun e => e.src = a && e.dst = b) = true
  · rw [addEdge, if_pos hany]
    have hmm : (es.map (fun e =>
        if e.src = a && e.dst = b then { e with weight := e.weight + w } else e)).map
        (fun e => (e.src, e.dst)) = es.map (fun e => (e.src, e.dst)) := by
      rw [List.map_map]
      refine List.map_congr_left ?_
      intro e _
      by_cases hm : (e.src = a && e.dst = b) = true
      · simp only [Function.comp, if_pos hm]
      · simp only [Function.comp, if_neg hm]
    rw [hmm]
    exact h
  · rw [addEdge, if_neg hany]
    rw [List.map_append]
    refine List.Nodup.append h (List.nodup_singleton _) ?_
    intro p hp hq
    have hq' : p = (a, b) := List.mem_singleton.mp hq
    subst hq'
    obtain ⟨e, he, hpe⟩ := List.mem_map.mp hp
    have hsrc : e.src = a := congrArg Prod.fst hpe
    have hdst : e.dst = b := congrArg Prod.snd hpe
    have : es.any (fun e => e.src = a && e.dst = b) = true := by
      refine List.any_eq_true.mpr ⟨e, he, ?_⟩
      simp only [hsrc, hdst, decide_True, Bool.and_self]
    exact hany this

/-- Shape of every member of addPathEdges: an old edge with weight not
decreased, or a consecutive pair of the realized path. -/
theorem addPathEdges_mem_shape (w : Nat) :
    ∀ (rids : List Nat) (es : List Edge), ∀ e' ∈ addPathEdges es w rids,
      (∃ e ∈ es, e'.src = e.src ∧ e'.dst = e.dst ∧ e.weight ≤ e'.weight) ∨
      (e'.src, e'.dst) ∈ rids.zip rids.tail := by
  intro rids
  induction rids with
  | nil => intro es e' he'; exact Or.inl ⟨e', he', rfl, rfl, Nat.le_refl _⟩
  | cons a rest ih =>
      intro es e' he'
      cases rest with
      | nil => exact Or.inl ⟨e', he', rfl, rfl, Nat.le_refl _⟩
      | cons b rest' =>
          have he'' : e' ∈ addPathEdges (addEdge es a b w) w (b :: rest') := he'
          rcases ih (addEdge es a b w) e' he'' with ⟨e, he, h1, h2, h3⟩ | hz
          · rcases addEdge_mem_shape es a b w e he with ⟨e0, he0, g1, g2, g3⟩ | hab
            · exact Or.inl ⟨e0, he0, h1.trans g1, h2.trans g2, Nat.le_trans g3 h3⟩
            · refine Or.inr ?_
              show (e'.src, e'.dst) ∈ (a, b) :: (b :: rest').zip rest'
              have : (e'.src, e'.dst) = (a, b) := by
                rw [h1, h2, hab.1, hab.2]
              rw [this]
              exact List.mem_cons_self _ _
          · refine Or.inr ?_
            show (e'.src, e'.dst) ∈ (a, b) :: (b :: rest').zip rest'
            exact List.mem_cons_of_mem _ hz

/-- Every old edge survives addPathEdges with the same endpoints and weight
not decreased. -/
theorem addPathEdges_mem_old (w : Nat) :
    ∀ (rids : List Nat) (es : List Edge), ∀ e ∈ es,
      ∃ e' ∈ addPathEdges es w rids,
        e'.src = e.src ∧ e'.dst = e.dst ∧ e.weight ≤ e'.weight := by
  intro rids
  induction rids with
  | nil => intro es e he; exact ⟨e, he, rfl, rfl, Nat.le_refl _⟩
  | cons a rest ih =>
      intro es e he
      cases rest with
      | nil => exact ⟨e, he, rfl, rfl, Nat.le_refl _⟩
      | cons b rest' =>
          obtain ⟨e1, he1, h1, h2, h3⟩ := addEdge_mem_old es a b w e he
          obtain ⟨e', he', g1, g2, g3⟩ := ih (addEdge es a b w) e1 he1
          exact ⟨e', he', g1.trans h1, g2.trans h2, Nat.le_trans h3 g3⟩

/-- addPathEdges keeps the endpoint pairs duplicate-free. -/
theorem addPathEdges_shapes_nodup (w : Nat) :
    ∀ (rids : List Nat) (es : List Edge),
      (es.map (fun e => (e.src, e.dst))).Nodup →
      ((addPathEdges es w rids).map (fun e => (e.src, e.dst))).Nodup := by
  intro rids
  induction rids with
  | nil => intro es h; exact h
  | cons a rest ih =>
      intro es h
      cases rest with
      | nil => exact h
      | cons b rest' =>
          exact ih (addEdge es a b w) (addEdge_shapes_nodup es a b w h)

/-- Every candidate end row of the alignment is a row of the store (or the
virtual start row). -/
theorem sinkCands_rowRank (g : Graph) :
    ∀ u ∈ sinkCands g, rowRank u ≤ g.nodes.length := by
  intro u hu
  simp only [sinkCands] at hu
  by_cases he : (sinkRanks g).isEmpty = true
  · rw [if_pos he] at hu
    have hun : u = none := List.mem_singleton.mp hu
    subst hun
    exact Nat.zero_le _
  · rw [if_neg he] at hu
    obtain ⟨r, hr, hru⟩ := List.mem_map.mp hu
    subst hru
    rw [sinkRanks] at hr
    have hrange := List.mem_range.mp (List.mem_of_mem_filter hr)
    show r + 1 ≤ g.nodes.length
    omega

/-- The graph ranks a successful traceback matches are strictly increasing
and within the store. -/
theorem traceback_mat_ranks (g : Graph) (s : List Char) (sc : Scoring)
    (steps : List Step) (h : traceback g s sc = some steps) :
    (steps.filterMap (fun st => match st with
      | Step.mat r _ => some r | _ => none)).Pairwise (· < ·) ∧
    ∀ r ∈ steps.filterMap (fun st => match st with
      | Step.mat r _ => some r | _ => none), r < g.nodes.length := by
  cases hfs : finalScore g s sc with
  | none =>
      rw [traceback] at h
      simp only [hfs] at h
      exact Option.noConfusion h
  | some v =>
      cases hfind : (([Mat.m, Mat.y, Mat.x]).flatMap
          (fun mt => (sortCands g (sinkCands g)).map (fun u => (mt, u)))).find?
          (fun c => decide (score g s sc c.1 c.2 s.length = some v)) with
      | none =>
          rw [traceback] at h
          simp only [hfs, hfind] at h
          exact Option.noConfusion h
      | some c =>
          obtain ⟨mt, u⟩ := c
          have hstep := traceback_step g s sc hfs hfind
          rw [hstep] at h
          have hmem := List.mem_of_find?_eq_some hfind
          obtain ⟨mt', hmt', hmu⟩ := List.mem_flatMap.mp hmem
          obtain ⟨u', hu', hequ⟩ := List.mem_map.mp hmu
          have huu : u' = u := congrArg Prod.snd hequ
          rw [huu] at hu'
          have husk : u ∈ sinkCands g := (mem_sortCands g _ u).mp hu'
          have hrow := sinkCands_rowRank g u husk
          have hfacts := tb_mat_ranks g s sc (bigFuel g s) mt u s.length steps h hrow
          exact ⟨hfacts.1, fun r hr => (hfacts.2 r hr).2⟩

/-- A successful insertion is exactly a mutate of the positions of a
successful traceback. -/
theorem addSequenceW_ok (g : Graph) (s : List Char) (sc : Scoring) (w : Nat)
    (g' : Graph) (h : addSequenceW g s sc w = .ok g') :
    ∃ steps, traceback g s sc = some steps ∧
      g' = mutate g s w (positionsOf g s steps) := by
  rw [addSequenceW] at h
  by_cases hv : validSeq s = false
  · rw [if_pos hv] at h
    cases h
  · rw [if_neg hv] at h
    by_cases hsc : validScoring sc = false
    · rw [if_pos hsc] at h
      cases h
    · rw [if_neg hsc] at h
      cases htb : traceback g s sc with
      | none =>
          simp only [htb] at h
          exact Except.noConfusion h
      | some steps =>
          simp only [htb] at h
          exact ⟨steps, rfl, (Except.ok.inj h).symm⟩

/-- The mutator preserves well-formedness, never shrinks a node or an edge,
and keeps the node list a valid topological order, provided the reused
ranks of the realized items are strictly increasing and within the
store. -/
theorem mutate_wf (g : Graph) (s : List Char) (w : Nat) (pos : List PosA)
    (hwf : WF g)
    (hpw : ((realize g.nextId (s.zip pos)).filterMap (fun it => match it with
      | Item.old r => some r | _ => none)).Pairwise (· < ·))
    (hbd : ∀ r ∈ (realize g.nextId (s.zip pos)).filterMap (fun it => match it with
      | Item.old r => some r | _ => none), r < g.nodes.length) :
    WF (mutate g s w pos) ∧
    (∀ n ∈ g.nodes, ∃ n' ∈ (mutate g s w pos).nodes,
      n'.id = n.id ∧ n'.sym = n.sym ∧ n.weight ≤ n'.weight) ∧
    (∀ e ∈ g.edges, ∃ e' ∈ (mutate g s w pos).edges,
      e'.src = e.src ∧ e'.dst = e.dst ∧ e.weight ≤ e'.weight) ∧
    TopoValid (mutate g s w pos) := by
  have hbd0 : ∀ r ∈ (realize g.nextId (s.zip pos)).filterMap (fun it => match it with
      | Item.old r => some r | _ => none), 0 ≤ r ∧ r < g.nodes.length :=
    fun r hr => ⟨Nat.zero_le r, hbd r hr⟩
  have hrsub : ((realize g.nextId (s.zip pos)).map (itemId g)).Sublist
      ((buildNodes w g.nodes 0 (realize g.nextId (s.zip pos))).map Node.id) := by
    have := bn_realized_sub g w (realize g.nextId (s.zip pos)) 0 hpw hbd0
    rw [List.drop_zero] at this
    exact this
  have hperm := bn_ids_perm w (realize g.nextId (s.zip pos)) g.nodes 0
  have hnew := realize_newIds_facts (s.zip pos) g.nextId
  have hnodup' : ((buildNodes w g.nodes 0
      (realize g.nextId (s.zip pos))).map Node.id).Nodup := by
    refine (hperm.nodup_iff).mpr ?_
    refine List.Nodup.append hwf.idsNodup ?_ ?_
    · exact hnew.2.imp (fun h => Nat.ne_of_lt h)
    · intro a ha hb
      obtain ⟨n, hn, hna⟩ := List.mem_map.mp ha
      have h1 : a < g.nextId := hna ▸ hwf.idsLt n hn
      have h2 := (hnew.1 a hb).1
      omega
  have hfwd : ∀ e ∈ addPathEdges g.edges w
      ((realize g.nextId (s.zip pos)).map (itemId g)),
      [e.src, e.dst].Sublist ((buildNodes w g.nodes 0
        (realize g.nextId (s.zip pos))).map Node.id) := by
    intro e he
    rcases addPathEdges_mem_shape w _ g.edges e he with ⟨e0, he0, h1, h2, _⟩ | hz
    · rw [show [e.src, e.dst] = [e0.src, e0.dst] from by rw [h1, h2]]
      exact (hwf.edgeFwd e0 he0).trans
        (bn_old_sub w (realize g.nextId (s.zip pos)) g.nodes 0)
    · exact (mem_zip_tail_sublist _ e.src e.dst hz).trans hrsub
  refine ⟨⟨hnodup', ?_, hfwd, ?_⟩, ?_, ?_, hfwd⟩
  · intro n hn
    have hmm : n.id ∈ (buildNodes w g.nodes 0
        (realize g.nextId (s.zip pos))).map Node.id := List.mem_map_of_mem Node.id hn
    have := hperm.mem_iff.mp hmm
    rcases List.mem_append.mp this with h | h
    · obtain ⟨m, hm, hmn⟩ := List.mem_map.mp h
      have := hmn ▸ hwf.idsLt m hm
      show n.id < g.nextId + (realize g.nextId (s.zip pos)).countP isNew
      omega
    · have := (hnew.1 n.id h).2
      exact this
  · exact addPathEdges_shapes_nodup w _ g.edges hwf.edgesNodup
  · intro n hn
    exact bn_old_weight w (realize g.nextId (s.zip pos)) g.nodes 0 n hn
  · intro e he
    exact addPathEdges_mem_old w _ g.edges e he

/-- A successful insertion into a well-formed store yields a well-formed
store that extends the old one: nodes and edges keep identity with weight
not decreased, and the node list stays a valid topological order. -/
theorem addSequenceW_wf (g : Graph) (s : List Char) (sc : Scoring) (w : Nat)
    (g' : Graph) (hwf : WF g) (hok : addSequenceW g s sc w = .ok g') :
    WF g' ∧
    (∀ n ∈ g.nodes, ∃ n' ∈ g'.nodes,
      n'.id = n.id ∧ n'.sym = n.sym ∧ n.weight ≤ n'.weight) ∧
    (∀ e ∈ g.edges, ∃ e' ∈ g'.edges,
      e'.src = e.src ∧ e'.dst = e.dst ∧ e.weight ≤ e'.weight) ∧
    TopoValid g' := by
  obtain ⟨steps, htb, hg'⟩ := addSequenceW_ok g s sc w g' hok
  subst hg'
  have hmr := traceback_mat_ranks g s sc steps htb
  have holdm : ((realize g.nextId (s.zip (positionsOf g s steps))).filterMap
      (fun it => match it with
        | Item.old r => some r | _ => none)).Sublist
      (steps.filterMap (fun st => match st with
        | Step.mat r _ => some r | _ => none)) :=
    (realize_oldRanks_sub s (positionsOf g s steps) g.nextId).trans
      (positionsOf_reuse_sub g s steps)
  exact mutate_wf g s w (positionsOf g s steps) hwf
    (hmr.1.sublist holdm)
    (fun r hr => hmr.2 r (holdm.subset hr))

/-- C5: In every reachable store — the empty graph and everything successful
insertions produce — the store is well-formed and its node list is a valid
topological order, so the graph is a DAG; moreover a single successful
insertion never removes anything: every node and every edge of the old
store survives with its identity and a weight that has not decreased, so
the node and edge sets grow monotonically across operations. -/
theorem c5_dag_invariant :
    (∀ g, Reachable g → WF g ∧ TopoValid g) ∧
    (∀ g s sc w g', WF g → addSequenceW g s sc w = .ok g' →
      WF g' ∧ TopoValid g' ∧
      (∀ n ∈ g.nodes, ∃ n' ∈ g'.nodes,
        n'.id = n.id ∧ n'.sym = n.sym ∧ n.weight ≤ n'.weight) ∧
      (∀ e ∈ g.edges, ∃ e' ∈ g'.edges,
        e'.src = e.src ∧ e'.dst = e.dst ∧ e.weight ≤ e'.weight)) := by
  have hreach : ∀ g, Reachable g → WF g := by
    intro g hg
    induction hg with
    | empty =>
        refine ⟨List.nodup_nil, ?_, ?_, List.nodup_nil⟩
        · intro n hn
          cases hn
        · intro e he
          cases he
    | step h1 h2 ih =>
        exact (addSequenceW_wf _ _ _ _ _ ih h2).1
  constructor
  · intro g hg
    exact ⟨hreach g hg, (hreach g hg).edgeFwd⟩
  · intro g s sc w g' hwf hok
    obtain ⟨h1, h2, h3, h4⟩ := addSequenceW_wf g s sc w g' hwf hok
    exact ⟨h1, h4, h2, h3⟩

end Poasta
